import Mathlib

/-!
# CPFS: a shallow embedding of `src/cpfs.c`

The byte-string (non-`_WIN32`) branch of every function is embedded, together
with the wide-character branch of `cpfs_dir_create`.

Memory.  A pointer to a block of characters is modelled by the list of the
cells of that block, from the pointed-to cell to the end of the block.  A
C string is such a block holding a NUL (`0`) cell.  Every read or write is
bounds-checked: an access outside the block is undefined behaviour in C and
yields `none` here.  A block returned by `malloc` holds arbitrary cells, given
by a function `fresh`; the theorems hold for every `fresh`.

Integers.  Sizes (`size_t`, `ssize_t`) are object sizes and are modelled by
`Nat`/`Int` without wrap-around; the `unsigned char` loop counters of
`cpfs_join`, where wrap-around is reachable, are reduced modulo `256`.

Loops and recursion.  The loops of `cpfs_join` and the loop and the recursion
of `cpfs_remove_recursive` take fuel: one unit per test of a loop condition
and per call.  An outcome is a value, a fault (undefined behaviour or a failed
`assert`), or a timeout (the fuel did not suffice).

Operating system.  `cpfs_remove_recursive` is defined over an arbitrary
operating system `OS σ`, whose `opendir`, `remove` and `stat` may succeed or
fail in any way.  Two instances are used: `posix`, a filesystem with POSIX
pathname resolution, and `logged os forced`, which records the calls made to
`os` and can force one call to fail.
-/

namespace CPFS

/-- Type `CpfsChar` (`char` outside `_WIN32`, `wchar_t` inside), as a character code. -/
abbrev CpfsChar := Nat

/-- Constant `DIR_SEP` outside `_WIN32`: `'/'`. -/
def DIR_SEP : CpfsChar := 47

/-- Wide character `L'\\'`, the separator written by the `_WIN32` branch of `cpfs_dir_create`. -/
def BACKSLASH : CpfsChar := 92

/-- Wide character `L'*'`. -/
def STAR : CpfsChar := 42

/-- Outcome of a computation that loops or recurses: a value, undefined
behaviour (or a failed `assert`), or more steps needed than the fuel given. -/
inductive Res (α : Type) where
  | ok : α → Res α
  | fault : Res α
  | timeout : Res α
deriving DecidableEq, Repr

/-- A memory operation that leaves its block is undefined behaviour. -/
def Res.ofOption {α : Type} : Option α → Res α
  | some a => Res.ok a
  | none => Res.fault

/-- Sequencing of outcomes. -/
def Res.bind {α β : Type} : Res α → (α → Res β) → Res β
  | Res.ok a, f => f a
  | Res.fault, _ => Res.fault
  | Res.timeout, _ => Res.timeout

/-! ## Memory primitives -/

/-- Call `malloc(n * sizeof(T))`: a block of `n` cells with arbitrary contents. -/
def malloc {α : Type} (fresh : Nat → α) (n : Nat) : List α :=
  (List.range n).map fresh

/-- Assignment `buf[i] = c`. -/
def store {α : Type} (buf : List α) (i : Nat) (c : α) : Option (List α) :=
  if i < buf.length then some (buf.take i ++ c :: buf.drop (i + 1)) else none

/-- Call `memcpy(dst + off, src, n)`, counted in cells. -/
def memcpy {α : Type} (dst : List α) (off : Nat) (src : List α) (n : Nat) :
    Option (List α) :=
  if n ≤ src.length ∧ off + n ≤ dst.length then
    some (dst.take off ++ src.take n ++ dst.drop (off + n))
  else none

/-- The characters of a C string: the cells before the first NUL (`none` when
the block holds no NUL, so that reading the string leaves the block). -/
def c_str : List CpfsChar → Option (List CpfsChar)
  | [] => none
  | c :: cs => if c = 0 then some [] else (c_str cs).map (fun t => c :: t)

/-- Function `strlen` (and `wcslen`). -/
def strlen (s : List CpfsChar) : Option Nat :=
  (c_str s).map List.length

/-- The block of a string literal or caller-supplied string with characters `s`. -/
def literal (s : List CpfsChar) : List CpfsChar := s ++ [0]

/-- The character codes of a Lean string (for concrete inputs). -/
def bytes (s : String) : List CpfsChar := s.toList.map Char.toNat

/-- A string without NUL characters. -/
def NulFree (s : List CpfsChar) : Prop := ∀ c ∈ s, c ≠ 0

instance (s : List CpfsChar) : Decidable (NulFree s) := by
  unfold NulFree; infer_instance

/-! ## Paths (`cpfs.h`, `cpfs.c` lines 63-115) -/

/-- Structure `CpfsPath`: `{ size_t size; CpfsChar* path; bool owned; }`. -/
structure CpfsPath where
  size : Nat
  path : List CpfsChar
  owned : Bool
deriving DecidableEq, Repr

/-- Function `cpfs_path_create`, byte-string branch:
`*path = (CpfsPath) { strlen(utf8), (char*) utf8, false };`. -/
def cpfs_path_create (utf8 : List CpfsChar) : Option CpfsPath :=
  (strlen utf8).map fun n => { size := n, path := utf8, owned := false }

/-- Function `cpfs_path_utf8`, byte-string branch: `return path->path;`. -/
def cpfs_path_utf8 (path : CpfsPath) : List CpfsChar := path.path

/-- Function `cpfs_path_join`. `cur` is kept as an offset into `out->path`. -/
def cpfs_path_join (fresh : Nat → CpfsChar) (p1 p2 : CpfsPath) : Option CpfsPath := do
  let size := p1.size + p2.size + 1 + (if p1.size > 0 ∧ p2.size > 0 then 1 else 0)
  let buf := malloc fresh (p1.size + p2.size + 2)
  let cur := 0
  let buf ← memcpy buf cur p1.path p1.size
  let cur := cur + p1.size
  let (buf, cur) ←
    if p2.size > 0 then (store buf cur DIR_SEP).map (fun b => (b, cur + 1))
    else some (buf, cur)
  let buf ← memcpy buf cur p2.path p2.size
  let buf ← store buf (cur + p2.size) 0
  some { size := size, path := buf, owned := true }

/-! ## String joins (`cpfs.c` lines 118-171) -/

/-- Function `cpfs_join2`. -/
def cpfs_join2 (fresh : Nat → CpfsChar) (p1 p2 : List CpfsChar) :
    Option (List CpfsChar) := do
  let len1 ← strlen p1
  let len2 ← strlen p2
  let out := malloc fresh (len1 + len2 + 2)
  let cur := 0
  let (out, cur) ←
    if len1 > 0 then do
      let out ← memcpy out cur p1 len1
      let cur := cur + len1
      if len2 > 0 then (store out cur DIR_SEP).map (fun b => (b, cur + 1))
      else some (out, cur)
    else some (out, cur)
  let out ← memcpy out cur p2 len2
  store out (cur + len2) 0

/-- The loop `for (unsigned char i = ...; i < nargs; ++i) body`, started with
counter value `i`: the counter is an `unsigned char`, so `++i` wraps modulo
`256`; `nargs` is an `unsigned`. One unit of fuel per evaluation of the loop
condition. -/
def for_uchar {σ : Type} (nargs : Nat) (body : Nat → σ → Res σ) :
    Nat → Nat → σ → Res σ
  | 0, _, _ => Res.timeout
  | fuel + 1, i, st =>
    if i < nargs then
      match body i st with
      | Res.ok st' => for_uchar nargs body fuel ((i + 1) % 256) st'
      | Res.fault => Res.fault
      | Res.timeout => Res.timeout
    else Res.ok st

/-- Local variables of `cpfs_join` live across its loops. -/
structure JoinState where
  argp : List (List CpfsChar)
  paths : List (List CpfsChar)
  sizes : List Nat
  total_size : Int
  out : List CpfsChar
  cur : Nat
deriving DecidableEq, Repr

/-- Call `va_arg(argp, const char*)`: reading past the arguments passed is
undefined behaviour. -/
def va_arg (st : JoinState) : Option (List CpfsChar × JoinState) :=
  match st.argp with
  | [] => none
  | p :: rest => some (p, { st with argp := rest })

/-- Body of the first loop of `cpfs_join` (lines 129-133). -/
def cpfs_join_body1 (i : Nat) (st : JoinState) : Res JoinState :=
  Res.ofOption do
    let (p, st) ← va_arg st
    let paths ← store st.paths i p
    let n ← strlen p
    let sizes ← store st.sizes i n
    let total_size := st.total_size + (if n = 0 then 0 else (n : Int) + 1)
    some { st with paths := paths, sizes := sizes, total_size := total_size }

/-- Body of the second loop of `cpfs_join` (lines 139-144). -/
def cpfs_join_body2 (i : Nat) (st : JoinState) : Res JoinState :=
  Res.ofOption do
    let n ← st.sizes[i]?
    if n = 0 then
      some st
    else do
      let p ← st.paths[i]?
      let out ← memcpy st.out st.cur p n
      let cur := st.cur + n
      if (cur : Int) < st.total_size - 1 then
        (store out cur DIR_SEP).map fun out => { st with out := out, cur := cur + 1 }
      else
        some { st with out := out, cur := cur }

/-- Function `cpfs_join(nargs, ...)` with the variadic arguments `argp`.  A cell
of `paths` not yet assigned points to an empty block. -/
def cpfs_join (fresh : Nat → CpfsChar) (fuel : Nat) (nargs : Nat)
    (argp : List (List CpfsChar)) : Res (List CpfsChar) :=
  if nargs > 0 then
    let st : JoinState :=
      { argp := argp
        paths := malloc (fun _ => []) nargs
        sizes := malloc fresh nargs
        total_size := 0
        out := []
        cur := 0 }
    (for_uchar nargs cpfs_join_body1 fuel 0 st).bind fun st =>
    let out := malloc fresh (if st.total_size = 0 then 1 else st.total_size.toNat)
    let st := { st with out := out, cur := 0 }
    (for_uchar nargs cpfs_join_body2 fuel 0 st).bind fun st =>
    Res.ofOption (store st.out st.cur 0)
  else Res.fault

/-- The loop body run at the given counter values, one after the other. -/
def run_in_order {σ : Type} (body : Nat → σ → Res σ) : List Nat → σ → Res σ
  | [], st => Res.ok st
  | i :: rest, st => (body i st).bind (run_in_order body rest)

/-- The non-empty components, in order, with one separator between each
consecutive pair. -/
def joined (comps : List (List CpfsChar)) : List CpfsChar :=
  [DIR_SEP].intercalate (comps.filter fun c => c ≠ [])

/-- The value `total_size` has after the first loop of `cpfs_join`. -/
def join_total : List (List CpfsChar) → Int
  | [] => 0
  | c :: cs => (if c.length = 0 then 0 else (c.length : Int) + 1) + join_total cs

/-! ## The operating system, as seen by `cpfs.c`

The library calls the byte-string branch makes.  A `const char*` argument is
passed as the characters of the C string.  `opendir` yields the stream that
`readdir` will hand out (`none` for a `NULL` stream), `remove` and `stat`
report success or failure; every call may change the system state. -/

/-- Structure `struct dirent`, the two fields read by `cpfs.c`. -/
structure Dirent where
  d_name : List CpfsChar
  d_type : Nat
deriving DecidableEq, Repr

/-- Library calls over a system state `σ`. -/
structure OS (σ : Type) where
  opendir : σ → List CpfsChar → Option (List Dirent) × σ
  remove : σ → List CpfsChar → Bool × σ
  stat : σ → List CpfsChar → Option Nat

/-- Enumeration `CpfsFileType`. -/
inductive CpfsFileType where
  | CPFS_FT_BLOCK_DEVICE
  | CPFS_FT_CHAR_DEVICE
  | CPFS_FT_DIRECTORY
  | CPFS_FT_FIFO
  | CPFS_FT_SYMLINK
  | CPFS_FT_REGULAR
  | CPFS_FT_SOCKET
  | CPFS_FT_UNKNOWN
deriving DecidableEq, Repr

/-- Value of `DT_UNKNOWN` in `<dirent.h>`. -/
def DT_UNKNOWN : Nat := 0

/-- Value of `DT_FIFO` in `<dirent.h>`. -/
def DT_FIFO : Nat := 1

/-- Value of `DT_CHR` in `<dirent.h>`. -/
def DT_CHR : Nat := 2

/-- Value of `DT_DIR` in `<dirent.h>`. -/
def DT_DIR : Nat := 4

/-- Value of `DT_BLK` in `<dirent.h>`. -/
def DT_BLK : Nat := 6

/-- Value of `DT_REG` in `<dirent.h>`. -/
def DT_REG : Nat := 8

/-- Value of `DT_LNK` in `<dirent.h>`. -/
def DT_LNK : Nat := 10

/-- Value of `DT_SOCK` in `<dirent.h>`. -/
def DT_SOCK : Nat := 12

/-- Structure `CpfsDirIter`, byte-string branch: `{ DIR *dir; struct dirent *entry; }`.
A `DIR*` is `none` (`NULL`) or the entries not yet read. -/
structure CpfsDirIter where
  dir : Option (List Dirent)
  entry : Option Dirent
deriving DecidableEq, Repr

/-- Function `cpfs_stat`: `return stat(path->path, &st->st) != -1;`. -/
def cpfs_stat {σ : Type} (os : OS σ) (s : σ) (path : CpfsPath) : Option Bool :=
  (c_str path.path).map fun t => (os.stat s t).isSome

/-- Function `cpfs_exists`: `return cpfs_stat(&st, path);`. -/
def cpfs_exists {σ : Type} (os : OS σ) (s : σ) (path : CpfsPath) : Option Bool :=
  cpfs_stat os s path

/-- Function `cpfs_remove`: `return remove(path->path) == 0;`. -/
def cpfs_remove {σ : Type} (os : OS σ) (s : σ) (path : CpfsPath) : Option (Bool × σ) :=
  (c_str path.path).map fun t => os.remove s t

/-- Function `cpfs_dir_create`, byte-string branch:
`dir->dir = opendir(path->path); return dir->dir != NULL;`. -/
def cpfs_dir_create {σ : Type} (os : OS σ) (s : σ) (path : CpfsPath) :
    Option (Bool × CpfsDirIter × σ) :=
  (c_str path.path).map fun t =>
    ((os.opendir s t).1.isSome, { dir := (os.opendir s t).1, entry := none }, (os.opendir s t).2)

/-- Function `cpfs_dir_next`: `dir->entry = readdir(dir->dir); return dir->entry != NULL;`. -/
def cpfs_dir_next (it : CpfsDirIter) : Option (Bool × CpfsDirIter) :=
  match it.dir with
  | none => none
  | some [] => some (false, { dir := some [], entry := none })
  | some (d :: rest) => some (true, { dir := some rest, entry := some d })

/-- Function `cpfs_dir_name`:
`*name = (CpfsPath) { strlen(dir->entry->d_name), dir->entry->d_name, false };`. -/
def cpfs_dir_name (it : CpfsDirIter) : Option CpfsPath :=
  match it.entry with
  | none => none
  | some e => (strlen e.d_name).map fun n => { size := n, path := e.d_name, owned := false }

/-- Function `cpfs_dir_type`, branch `_DIRENT_HAVE_D_TYPE`. -/
def cpfs_dir_type (it : CpfsDirIter) : Option CpfsFileType :=
  match it.entry with
  | none => none
  | some e =>
    some (
      if e.d_type = DT_BLK then CpfsFileType.CPFS_FT_BLOCK_DEVICE
      else if e.d_type = DT_CHR then CpfsFileType.CPFS_FT_CHAR_DEVICE
      else if e.d_type = DT_DIR then CpfsFileType.CPFS_FT_DIRECTORY
      else if e.d_type = DT_FIFO then CpfsFileType.CPFS_FT_FIFO
      else if e.d_type = DT_LNK then CpfsFileType.CPFS_FT_SYMLINK
      else if e.d_type = DT_REG then CpfsFileType.CPFS_FT_REGULAR
      else if e.d_type = DT_SOCK then CpfsFileType.CPFS_FT_SOCKET
      else CpfsFileType.CPFS_FT_UNKNOWN)

/-- The body of the loop of `cpfs_remove_recursive` for the current entry
(lines 305-313), with the recursive call passed as `recurse`: the value of
`good` after it, and the state.  `cpfs_path_destroy` releases memory and has
no effect on the modelled state. -/
def cpfs_remove_recursive_body {σ : Type} (os : OS σ) (fresh : Nat → CpfsChar)
    (recurse : σ → CpfsPath → Res (Bool × σ)) (path : CpfsPath)
    (s : σ) (it : CpfsDirIter) (good : Bool) : Res (Bool × σ) :=
  match cpfs_dir_name it with
  | none => Res.fault
  | some entry_name =>
    match cpfs_path_join fresh path entry_name with
    | none => Res.fault
    | some entry_path =>
      (if cpfs_dir_type it = some CpfsFileType.CPFS_FT_DIRECTORY then
          recurse s entry_path
        else Res.ok (good, s)).bind fun r1 =>
      if r1.1 then Res.ofOption (cpfs_remove os r1.2 entry_path)
      else Res.ok r1

/-- The `while (cpfs_dir_next(&it)) { ... if (!good) break; }` loop of
`cpfs_remove_recursive` (lines 304-316) followed by `return good`.  One unit
of fuel per evaluation of the loop condition.  `cpfs_dir_destroy` releases the
stream and has no effect on the modelled state. -/
def cpfs_remove_recursive_loop {σ : Type} (os : OS σ) (fresh : Nat → CpfsChar)
    (recurse : σ → CpfsPath → Res (Bool × σ)) (path : CpfsPath) :
    Nat → σ → CpfsDirIter → Bool → Res (Bool × σ)
  | 0, _, _, _ => Res.timeout
  | fuel + 1, s, it, good =>
    match cpfs_dir_next it with
    | none => Res.fault
    | some (false, _) => Res.ok (good, s)
    | some (true, it) =>
      (cpfs_remove_recursive_body os fresh recurse path s it good).bind fun r =>
      if r.1 then cpfs_remove_recursive_loop os fresh recurse path fuel r.2 it r.1
      else Res.ok r

/-- Function `cpfs_remove_recursive`. One unit of fuel per call. -/
def cpfs_remove_recursive {σ : Type} (os : OS σ) (fresh : Nat → CpfsChar) :
    Nat → σ → CpfsPath → Res (Bool × σ)
  | 0, _, _ => Res.timeout
  | fuel + 1, s, path =>
    match cpfs_dir_create os s path with
    | none => Res.fault
    | some (good, it, s) =>
      if good then
        cpfs_remove_recursive_loop os fresh (cpfs_remove_recursive os fresh fuel) path fuel s it good
      else Res.ok (false, s)

/-! ## The wide-character branch of `cpfs_dir_create` (lines 325-331) -/

/-- Structure `CpfsDirIter`, `_WIN32` branch, without the find data: the search pattern
`path` and whether `handle` is a valid handle. -/
structure CpfsDirIterW where
  path : List CpfsChar
  handle : Bool
deriving DecidableEq, Repr

/-- Function `cpfs_dir_create`, `_WIN32` branch. -/
def cpfs_dir_create_win32 (fresh : Nat → CpfsChar) (path : CpfsPath) :
    Option (Bool × CpfsDirIterW) := do
  let buf := malloc fresh (path.size + 2)
  let buf ← memcpy buf 0 path.path path.size
  let buf ← store buf path.size BACKSLASH
  let buf ← store buf (path.size + 1) STAR
  let buf ← store buf (path.size + 2) 0
  some (true, { path := buf, handle := false })

/-! ## A filesystem

A model of the system state for the byte-string branch: a tree of named
entries, each a directory or a regular file, a working directory, and
pathname resolution as in POSIX (no symbolic links).  `opendir` takes a
snapshot of the directory; whether the stream reports the self and parent
entries is a property of the filesystem (`dots`). -/

/-- An entry name. -/
abbrev Name := List CpfsChar

/-- A location: the names leading from the root to an entry. -/
abbrev Loc := List Name

/-- An entry other than the root: the location of its directory, its name, and
whether it is a directory. -/
structure Node where
  parent : Loc
  name : Name
  dir : Bool
deriving DecidableEq, Repr

/-- The location of an entry. -/
def Node.loc (n : Node) : Loc := n.parent ++ [n.name]

/-- State of the filesystem. -/
structure FS where
  dots : Bool
  cwd : Loc
  nodes : List Node
deriving DecidableEq, Repr

/-- The name `"."`. -/
def DOT : Name := [46]

/-- The name `".."`. -/
def DOTDOT : Name := [46, 46]

/-- A name an entry may bear. -/
def validName (n : Name) : Prop :=
  n ≠ [] ∧ NulFree n ∧ DIR_SEP ∉ n ∧ n ≠ DOT ∧ n ≠ DOTDOT

instance (n : Name) : Decidable (validName n) := by
  unfold validName; infer_instance

/-- Every entry bears a valid name. -/
def FS.WF (fs : FS) : Prop := ∀ n ∈ fs.nodes, validName n.name

instance (fs : FS) : Decidable fs.WF := by
  unfold FS.WF; infer_instance

/-- There is an entry at the location. -/
def FS.isEntry (fs : FS) (loc : Loc) : Bool :=
  loc = [] || fs.nodes.any fun n => n.loc = loc

/-- There is a directory at the location. -/
def FS.isDir (fs : FS) (loc : Loc) : Bool :=
  loc = [] || fs.nodes.any fun n => n.loc = loc && n.dir

/-- The components of a pathname, split at the separators. -/
def components : List CpfsChar → List Name
  | [] => [[]]
  | c :: cs =>
    if c = DIR_SEP then [] :: components cs
    else
      match components cs with
      | [] => [[c]]
      | x :: xs => (c :: x) :: xs

/-- Follow the components from a location; each step starts in a directory. -/
def FS.walk (fs : FS) : Loc → List Name → Option Loc
  | loc, [] => some loc
  | loc, c :: cs =>
    if fs.isDir loc then
      if c = [] ∨ c = DOT then fs.walk loc cs
      else if c = DOTDOT then fs.walk loc.dropLast cs
      else fs.walk (loc ++ [c]) cs
    else none

/-- Pathname resolution: the location of the entry named by a pathname. The
empty pathname names nothing. -/
def FS.resolve (fs : FS) (t : List CpfsChar) : Option Loc :=
  match t with
  | [] => none
  | c :: _ =>
    match fs.walk (if c = DIR_SEP then [] else fs.cwd) (components t) with
    | none => none
    | some loc => if fs.isEntry loc then some loc else none

/-- The entry exists and every location on the way from the root to it is a
directory. -/
def FS.reachable (fs : FS) (loc : Loc) : Bool :=
  fs.isEntry loc && (List.range loc.length).all fun k => fs.isDir (loc.take k)

/-- The last non-empty component of a pathname is `"."` or `".."`. -/
def endsInDot (t : List CpfsChar) : Bool :=
  match ((components t).filter fun c => c ≠ []).getLast? with
  | none => false
  | some c => c = DOT || c = DOTDOT

/-- The stream of a directory: the self and parent entries when the filesystem
reports them, then the entries of the directory. -/
def FS.stream (fs : FS) (loc : Loc) : List Dirent :=
  (if fs.dots then [{ d_name := literal DOT, d_type := DT_DIR },
                    { d_name := literal DOTDOT, d_type := DT_DIR }] else []) ++
  (fs.nodes.filter fun n => n.parent = loc).map fun n =>
    { d_name := literal n.name, d_type := if n.dir then DT_DIR else DT_REG }

/-- Library call `opendir`. -/
def FS.opendir (fs : FS) (t : List CpfsChar) : Option (List Dirent) × FS :=
  match fs.resolve t with
  | none => (none, fs)
  | some loc => if fs.isDir loc then (some (fs.stream loc), fs) else (none, fs)

/-- Library call `remove`: `unlink` for a file; `rmdir` for a directory, which fails on the
root, on a pathname ending in `"."` or `".."`, and on a directory that has
entries. -/
def FS.remove (fs : FS) (t : List CpfsChar) : Bool × FS :=
  match fs.resolve t with
  | none => (false, fs)
  | some loc =>
    if fs.isDir loc then
      if loc = [] ∨ endsInDot t = true ∨ (fs.nodes.any fun n => n.parent = loc) = true then
        (false, fs)
      else (true, { fs with nodes := fs.nodes.filter fun n => n.loc ≠ loc })
    else (true, { fs with nodes := fs.nodes.filter fun n => n.loc ≠ loc })

/-- Value of `S_IFDIR` in `<sys/stat.h>`. -/
def S_IFDIR : Nat := 0o040000

/-- Value of `S_IFREG` in `<sys/stat.h>`. -/
def S_IFREG : Nat := 0o100000

/-- Library call `stat`: the file type bits of `st_mode`. -/
def FS.stat (fs : FS) (t : List CpfsChar) : Option Nat :=
  match fs.resolve t with
  | none => none
  | some loc => some (if fs.isDir loc then S_IFDIR else S_IFREG)

/-- The filesystem as an operating system. -/
def posix : OS FS where
  opendir := FS.opendir
  remove := FS.remove
  stat := FS.stat

/-! ## A log of library calls -/

/-- A library call that can fail, with the pathname passed and its outcome. -/
inductive Event where
  | opendir (t : List CpfsChar) (success : Bool)
  | remove (t : List CpfsChar) (success : Bool)
deriving DecidableEq, Repr

/-- Whether the call succeeded. -/
def Event.success : Event → Bool
  | Event.opendir _ b => b
  | Event.remove _ b => b

/-- An operating system that records each call in a log.  With
`forced = some k` the call number `k` (counting from `0` the calls logged so
far) is forced to fail: it is not passed on to `os` and leaves the state as it
is. -/
def logged {σ : Type} (os : OS σ) (forced : Option Nat) : OS (σ × List Event) where
  opendir := fun s t =>
    if forced = some s.2.length then (none, (s.1, s.2 ++ [Event.opendir t false]))
    else ((os.opendir s.1 t).1,
      ((os.opendir s.1 t).2, s.2 ++ [Event.opendir t (os.opendir s.1 t).1.isSome]))
  remove := fun s t =>
    if forced = some s.2.length then (false, (s.1, s.2 ++ [Event.remove t false]))
    else ((os.remove s.1 t).1,
      ((os.remove s.1 t).2, s.2 ++ [Event.remove t (os.remove s.1 t).1]))
  stat := fun s t => os.stat s.1 t

/-- The calls logged by a walk that returned `good`: when `good` is true every
call succeeded; when it is false exactly one call failed, and it is the last
call made. -/
def FailFast (good : Bool) (evs : List Event) : Prop :=
  (good = true → ∀ e ∈ evs, e.success = true) ∧
  (good = false → ∃ pre e, evs = pre ++ [e] ∧ (∀ x ∈ pre, x.success = true) ∧
    e.success = false)

/-- The walk `fK`, run where call number `K` is forced to fail, against the
walk `fL` run without forcing: the log of `fL` extends the log it started
from; when call `K` is not among the calls `fL` makes, `fK` does what `fL`
does; when it is, `fK` returns false right after the forced call. -/
def Simulates {σ : Type} (K : Nat)
    (fL fK : σ × List Event → CpfsPath → Res (Bool × σ × List Event)) : Prop :=
  ∀ s log p good s' log', fL (s, log) p = Res.ok (good, (s', log')) →
    (∃ evs, log' = log ++ evs) ∧
    ((K < log.length ∨ log'.length ≤ K) → fK (s, log) p = Res.ok (good, (s', log'))) ∧
    (log.length ≤ K → K < log'.length →
      ∃ sk ev, fK (s, log) p = Res.ok (false, (sk, log'.take K ++ [ev])) ∧ ev.success = false)

/-- A path whose `size` cells lie in its block and whose block holds a NUL:
what `cpfs_path_create`, `cpfs_dir_name` and `cpfs_path_join` produce. -/
def CpfsPath.Proper (p : CpfsPath) : Prop :=
  p.size ≤ p.path.length ∧ (0 : CpfsChar) ∈ p.path

instance (p : CpfsPath) : Decidable p.Proper := by
  unfold CpfsPath.Proper; infer_instance

/-- An operating system whose directory streams hold NUL-terminated names. -/
def OS.Proper {σ : Type} (os : OS σ) : Prop :=
  ∀ s t d, (os.opendir s t).1 = some d → ∀ e ∈ d, (0 : CpfsChar) ∈ e.d_name

/-- What a walk does when call number `K` is forced to fail, started with the
calls `log` already made: it returns, having made at least `least` calls and
no call after call `K`; when it made call `K` it returns false; when it
returned before that call, the same walk on the plain operating system
returns the same. -/
def ForcedOutcome {σ : Type} (K least : Nat) (log : List Event)
    (plain : Res (Bool × σ)) (forced : Res (Bool × σ × List Event)) : Prop :=
  ∃ good s' log', forced = Res.ok (good, (s', log')) ∧
    (∃ evs, log' = log ++ evs) ∧
    log.length + least ≤ log'.length ∧
    log'.length ≤ K + 1 ∧
    (log'.length = K + 1 → good = false) ∧
    (log'.length ≤ K → plain = Res.ok (good, s'))

/-! ## Concrete inputs -/

/-- A heap whose fresh blocks hold zeros. -/
def zeros : Nat → CpfsChar := fun _ => 0

/-- A directory `d` holding a file `f` and an empty directory `e`, on a
filesystem whose streams do not report the self and parent entries. -/
def exampleTree : FS :=
  { dots := false
    cwd := []
    nodes := [{ parent := [], name := bytes "d", dir := true },
              { parent := [bytes "d"], name := bytes "f", dir := false },
              { parent := [bytes "d"], name := bytes "e", dir := true }] }

/-- The state `exampleTree` with the entries of `d` removed. -/
def exampleEmptied : FS :=
  { dots := false
    cwd := []
    nodes := [{ parent := [], name := bytes "d", dir := true }] }

/-- A directory `d` holding a file `f`, a directory `e` that holds a file `g`,
and a file `h`. -/
def exampleNested : FS :=
  { dots := false
    cwd := []
    nodes := [{ parent := [], name := bytes "d", dir := true },
              { parent := [bytes "d"], name := bytes "f", dir := false },
              { parent := [bytes "d"], name := bytes "e", dir := true },
              { parent := [bytes "d", bytes "e"], name := bytes "g", dir := false },
              { parent := [bytes "d"], name := bytes "h", dir := false }] }

/-- An empty directory `d` on a filesystem whose streams report the self and
parent entries. -/
def exampleDots : FS :=
  { dots := true
    cwd := []
    nodes := [{ parent := [], name := bytes "d", dir := true }] }

/-- The path built by `cpfs_path_create` from a string without NUL. -/
def pathOf (a : List CpfsChar) : CpfsPath :=
  { size := a.length, path := literal a, owned := false }

/-- The state `exampleNested` after a walk of `d` that stopped at `e`. -/
def exampleNestedAfter : FS :=
  { dots := false
    cwd := []
    nodes := [{ parent := [], name := bytes "d", dir := true },
              { parent := [bytes "d"], name := bytes "e", dir := true },
              { parent := [bytes "d", bytes "e"], name := bytes "g", dir := false },
              { parent := [bytes "d"], name := bytes "h", dir := false }] }

/-- The calls made by the walk of `d` in `exampleNested`. -/
def exampleLog : List Event :=
  [Event.opendir (bytes "d") true,
   Event.remove (bytes "d/f") true,
   Event.opendir (bytes "d/e") true,
   Event.remove (bytes "d/e") false]

/-- The calls of the walk of `d` in `exampleDots` when call number 5 is forced
to fail. -/
def exampleDotsLog : List Event :=
  [Event.opendir (bytes "d") true,
   Event.opendir (bytes "d/.") true,
   Event.opendir (bytes "d/.") true,
   Event.opendir (bytes "d/.") true,
   Event.opendir (bytes "d/.") true,
   Event.opendir (bytes "d/.") false]

/-- The calls of the walk of `d` in `exampleTree`. -/
def exampleTreeLog : List Event :=
  [Event.opendir (bytes "d") true,
   Event.remove (bytes "d/f") true,
   Event.opendir (bytes "d/e") true,
   Event.remove (bytes "d/e") true]

/-- The components of the first join test of `test.c`. -/
def exampleComponents : List (List CpfsChar) :=
  [bytes "foo", bytes "bar/baz", bytes "qux"]

/-- The components of the second join test of `test.c`. -/
def exampleSparse : List (List CpfsChar) :=
  [bytes "", bytes "foo", bytes "", bytes "qux", bytes ""]

/-! ## Memory and strings -/

theorem c_str_append_nul (a rest : List CpfsChar) (h : NulFree a) :
    c_str (a ++ 0 :: rest) = some a := by
  induction a with
  | nil => simp [c_str]
  | cons c cs ih =>
    have hc : c ≠ 0 := h c (by simp)
    have hcs : NulFree cs := fun x hx => h x (by simp [hx])
    simp [c_str, hc, ih hcs]

theorem c_str_literal (a : List CpfsChar) (h : NulFree a) : c_str (literal a) = some a := by
  unfold literal
  exact c_str_append_nul a [] h

theorem strlen_literal (a : List CpfsChar) (h : NulFree a) :
    strlen (literal a) = some a.length := by
  simp [strlen, c_str_literal a h]

theorem malloc_length {α : Type} (fresh : Nat → α) (n : Nat) : (malloc fresh n).length = n := by
  simp [malloc]

theorem store_at {α : Type} (w rest : List α) (i : Nat) (c : α) (hi : i = w.length)
    (h : 0 < rest.length) :
    store (w ++ rest) i c = some ((w ++ [c]) ++ rest.drop 1) := by
  subst hi
  have hlt : w.length < (w ++ rest).length := by simp; omega
  have hne : rest ≠ [] := by
    intro h0
    simp [h0] at h
  simp [store, hlt, hne]

theorem memcpy_at {α : Type} (w rest src : List α) (off n : Nat) (hoff : off = w.length)
    (h1 : n ≤ src.length) (h2 : n ≤ rest.length) :
    memcpy (w ++ rest) off src n = some ((w ++ src.take n) ++ rest.drop n) := by
  subst hoff
  have : n ≤ src.length ∧ w.length + n ≤ (w ++ rest).length := by
    constructor
    · exact h1
    · simp; omega
  simp [memcpy, this, List.drop_append, h2]

theorem cpfs_path_create_literal (a : List CpfsChar) (h : NulFree a) :
    cpfs_path_create (literal a) = some { size := a.length, path := literal a, owned := false } := by
  simp [cpfs_path_create, strlen_literal a h]


/-- The block written by `cpfs_path_join` when both copies stay in bounds. -/
theorem cpfs_path_join_some (fresh : Nat → CpfsChar) (p1 p2 : CpfsPath)
    (h1 : p1.size ≤ p1.path.length) (h2 : p2.size ≤ p2.path.length) :
    cpfs_path_join fresh p1 p2 = some
      { size := p1.size + p2.size + 1 + (if p1.size > 0 ∧ p2.size > 0 then 1 else 0)
        path := (p1.path.take p1.size ++ (if 0 < p2.size then [DIR_SEP] else []) ++
                  p2.path.take p2.size ++ [0]) ++
                (malloc fresh (p1.size + p2.size + 2)).drop
                  (p1.size + (if 0 < p2.size then 1 else 0) + p2.size + 1)
        owned := true } := by
  unfold cpfs_path_join
  dsimp only
  have e0 : malloc fresh (p1.size + p2.size + 2) = [] ++ malloc fresh (p1.size + p2.size + 2) := by simp
  have hl1 : (List.take p1.size p1.path).length = p1.size := by simp [h1]
  have hl2 : (List.take p2.size p2.path).length = p2.size := by simp [h2]
  rw [e0, memcpy_at [] _ p1.path 0 p1.size rfl h1 (by simp [malloc_length]; omega)]
  by_cases hp : 0 < p2.size
  · simp only [hp, if_true, gt_iff_lt, Option.bind_eq_bind, Option.some_bind, Option.pure_def,
      Option.bind_some, List.nil_append, zero_add]
    rw [store_at _ _ _ _ (by simp [h1]) (by simp [malloc_length]; omega)]
    simp only [Option.map_some', Option.some_bind, List.drop_drop]
    rw [memcpy_at _ _ p2.path _ p2.size (by simp [h1]) h2 (by simp [malloc_length]; omega)]
    simp only [Option.some_bind, List.drop_drop]
    rw [store_at _ _ _ _ (by simp [h1, h2]; omega) (by simp [malloc_length]; omega)]
    simp [List.drop_drop]
  · have hz : p2.size = 0 := by omega
    simp only [hp, if_false, gt_iff_lt, Option.bind_eq_bind, Option.some_bind, Option.pure_def,
      Option.bind_some, List.nil_append, zero_add]
    rw [memcpy_at _ _ p2.path _ p2.size (by simp [h1]) h2 (by simp [malloc_length]; omega)]
    simp only [Option.some_bind, List.drop_drop]
    rw [store_at _ _ _ _ (by simp [h1, h2]) (by simp [malloc_length])]
    simp [List.drop_drop, hz]


theorem store_length {α : Type} (buf b : List α) (i : Nat) (c : α)
    (h : store buf i c = some b) : b.length = buf.length := by
  unfold store at h
  split at h
  · injection h with h
    subst h
    simp
    omega
  · cases h

theorem memcpy_length {α : Type} (dst src b : List α) (off n : Nat)
    (h : memcpy dst off src n = some b) : b.length = dst.length := by
  unfold memcpy at h
  split at h
  · rename_i hc
    injection h with h
    subst h
    simp
    omega
  · cases h

theorem memcpy_bound {α : Type} (dst src b : List α) (off n : Nat)
    (h : memcpy dst off src n = some b) : n ≤ src.length := by
  unfold memcpy at h
  split at h
  · rename_i hc
    exact hc.1
  · cases h

theorem cpfs_path_join_bounds (fresh : Nat → CpfsChar) (p1 p2 out : CpfsPath)
    (h : cpfs_path_join fresh p1 p2 = some out) :
    p1.size ≤ p1.path.length ∧ p2.size ≤ p2.path.length := by
  unfold cpfs_path_join at h
  dsimp only at h
  cases h1 : memcpy (malloc fresh (p1.size + p2.size + 2)) 0 p1.path p1.size with
  | none => simp [h1] at h
  | some b1 =>
    refine ⟨memcpy_bound _ _ _ _ _ h1, ?_⟩
    simp only [h1, Option.bind_eq_bind, Option.some_bind, Nat.zero_add] at h
    by_cases hp : p2.size > 0
    · simp only [hp, if_true] at h
      cases h2 : store b1 p1.size DIR_SEP with
      | none => simp [h2] at h
      | some b2 =>
        simp only [h2, Option.map_some', Option.some_bind] at h
        cases h3 : memcpy b2 (p1.size + 1) p2.path p2.size with
        | none => simp [h3] at h
        | some b3 => exact memcpy_bound _ _ _ _ _ h3
    · omega

/-- Claim C10, where the code departs from it: in the wide-character branch of
`cpfs_dir_create` a write leaves the block, for every path: `size + 2` wide
characters are allocated, and in a block of that length the backslash (index
`size`) and the star (index `size + 1`) are in bounds while the terminating
NUL (index `size + 2`) is not. -/
theorem cpfs_dir_create_win32_overflow (fresh : Nat → CpfsChar) (path : CpfsPath) :
    cpfs_dir_create_win32 fresh path = none ∧
    (malloc fresh (path.size + 2)).length = path.size + 2 ∧
    ∀ buf : List CpfsChar, buf.length = path.size + 2 →
      (∃ b, store buf path.size BACKSLASH = some b) ∧
      (∃ b, store buf (path.size + 1) STAR = some b) ∧
      store buf (path.size + 2) 0 = none := by
  refine ⟨?_, malloc_length fresh _, ?_⟩
  · unfold cpfs_dir_create_win32
    dsimp only
    cases h1 : memcpy (malloc fresh (path.size + 2)) 0 path.path path.size with
    | none => rfl
    | some b1 =>
      have l1 := memcpy_length _ _ _ _ _ h1
      simp only [Option.bind_eq_bind, Option.some_bind]
      cases h2 : store b1 path.size BACKSLASH with
      | none => rfl
      | some b2 =>
        have l2 := store_length _ _ _ _ h2
        simp only [Option.some_bind]
        cases h3 : store b2 (path.size + 1) STAR with
        | none => rfl
        | some b3 =>
          have l3 := store_length _ _ _ _ h3
          have h4 : store b3 (path.size + 2) 0 = none := by
            unfold store
            rw [if_neg]
            rw [l3, l2, l1, malloc_length]
            omega
          simp only [Option.some_bind, h4, Option.none_bind]
  · intro buf hb
    unfold store
    refine ⟨⟨_, if_pos (by omega)⟩, ⟨_, if_pos (by omega)⟩, if_neg (by omega)⟩

theorem store_ex {α : Type} (w rest : List α) (i : Nat) (c : α) (hi : i = w.length)
    (h : 0 < rest.length) :
    ∃ rest', store (w ++ rest) i c = some ((w ++ [c]) ++ rest') ∧
      rest'.length = rest.length - 1 :=
  ⟨rest.drop 1, store_at w rest i c hi h, by simp⟩

theorem memcpy_ex {α : Type} (w rest src : List α) (off n : Nat) (hoff : off = w.length)
    (h1 : n ≤ src.length) (h2 : n ≤ rest.length) :
    ∃ rest', memcpy (w ++ rest) off src n = some ((w ++ src.take n) ++ rest') ∧
      rest'.length = rest.length - n :=
  ⟨rest.drop n, memcpy_at w rest src off n hoff h1 h2, by simp⟩

theorem memcpy_ex0 {α : Type} (m src : List α) (n : Nat)
    (h1 : n ≤ src.length) (h2 : n ≤ m.length) :
    ∃ rest', memcpy m 0 src n = some (src.take n ++ rest') ∧
      rest'.length = m.length - n := by
  have h := memcpy_ex [] m src 0 n rfl h1 h2
  simpa using h

theorem c_str_written (w rest : List CpfsChar) (h : NulFree w) :
    c_str ((w ++ [0]) ++ rest) = some w := by
  rw [List.append_assoc]
  exact c_str_append_nul w _ h

theorem take_literal (a : List CpfsChar) : (literal a).take a.length = a := by
  simp [literal]

theorem length_literal (a : List CpfsChar) : (literal a).length = a.length + 1 := by
  simp [literal]

theorem nulFree_append {a b : List CpfsChar} (ha : NulFree a) (hb : NulFree b) :
    NulFree (a ++ b) := by
  intro c hc
  rcases List.mem_append.mp hc with h | h
  · exact ha c h
  · exact hb c h

theorem nulFree_sep : NulFree [DIR_SEP] := by
  decide

/-! ## The joins of two components -/

/-- Claim C2: for all NUL-free strings `a` and `b`, `cpfs_join2(a, b)` returns
`a`, `DIR_SEP`, `b` when both are non-empty, `a` when `b` is empty, and `b`
when `a` is empty. -/
theorem cpfs_join2_spec (fresh : Nat → CpfsChar) (a b : List CpfsChar)
    (ha : NulFree a) (hb : NulFree b) :
    ∃ out, cpfs_join2 fresh (literal a) (literal b) = some out ∧
      c_str out = some (if a = [] then b else if b = [] then a else a ++ DIR_SEP :: b) := by
  unfold cpfs_join2
  simp only [strlen_literal a ha, strlen_literal b hb, Option.bind_eq_bind, Option.some_bind]
  have la : a.length ≤ (literal a).length := by simp [literal]
  have lb : b.length ≤ (literal b).length := by simp [literal]
  have lm := malloc_length fresh (a.length + b.length + 2)
  generalize malloc fresh (a.length + b.length + 2) = m at lm
  by_cases h1 : a = []
  · subst h1
    simp only [List.length_nil, gt_iff_lt, lt_self_iff_false, if_false, Option.some_bind,
      if_true, zero_add] at lm ⊢
    obtain ⟨r1, e1, l1⟩ := memcpy_ex0 m (literal b) b.length lb (by omega)
    rw [e1, take_literal]
    obtain ⟨r2, e2, _⟩ := store_ex b r1 b.length 0 rfl (by omega)
    simp only [Option.some_bind, e2]
    exact ⟨_, rfl, c_str_written b r2 hb⟩
  · have hpos : 0 < a.length := List.length_pos.mpr h1
    simp only [gt_iff_lt, hpos, if_true, h1, if_false, zero_add]
    obtain ⟨r1, e1, l1⟩ := memcpy_ex0 m (literal a) a.length la (by omega)
    rw [e1, take_literal]
    simp only [Option.some_bind]
    by_cases h2 : b = []
    · subst h2
      simp only [List.length_nil, lt_self_iff_false, if_false, Option.some_bind, if_true,
        add_zero] at l1 ⊢
      obtain ⟨r2, e2, l2⟩ := memcpy_ex a r1 (literal []) a.length 0 rfl (by simp) (by simp)
      rw [e2]
      simp only [List.take_zero, List.append_nil, Option.some_bind]
      obtain ⟨r3, e3, _⟩ := store_ex a r2 a.length 0 rfl (by omega)
      rw [e3]
      exact ⟨_, rfl, c_str_written a r3 ha⟩
    · have hposb : 0 < b.length := List.length_pos.mpr h2
      simp only [hposb, if_true, h2, if_false]
      obtain ⟨r2, e2, l2⟩ := store_ex a r1 a.length DIR_SEP rfl (by omega)
      rw [e2]
      simp only [Option.map_some', Option.some_bind]
      obtain ⟨r3, e3, l3⟩ := memcpy_ex (a ++ [DIR_SEP]) r2 (literal b) (a.length + 1) b.length
        (by simp) lb (by omega)
      rw [e3, take_literal]
      simp only [Option.some_bind]
      obtain ⟨r4, e4, _⟩ := store_ex (a ++ [DIR_SEP] ++ b) r3 (a.length + 1 + b.length) 0
        (by simp; omega) (by omega)
      rw [e4]
      refine ⟨_, rfl, ?_⟩
      have e : a ++ DIR_SEP :: b = a ++ [DIR_SEP] ++ b := by simp
      rw [e]
      exact c_str_written _ r4 (nulFree_append (nulFree_append ha nulFree_sep) hb)


theorem cpfs_path_create_eq (a : List CpfsChar) (h : NulFree a) (p : CpfsPath)
    (hp : cpfs_path_create (literal a) = some p) :
    p = { size := a.length, path := literal a, owned := false } := by
  rw [cpfs_path_create_literal a h] at hp
  injection hp with hp
  exact hp.symm

/-- Claim C3, where the code departs from it: for paths built by
`cpfs_path_create` from the empty string and from a non-empty NUL-free `b`,
the text of the path produced by `cpfs_path_join` is the separator followed by
`b`, and not `b` alone; the result is marked owned. -/
theorem cpfs_path_join_empty_first (fresh : Nat → CpfsChar) (b : List CpfsChar)
    (hb : NulFree b) (hne : b ≠ []) (p1 p2 : CpfsPath)
    (h1 : cpfs_path_create (literal []) = some p1)
    (h2 : cpfs_path_create (literal b) = some p2) :
    ∃ out, cpfs_path_join fresh p1 p2 = some out ∧
      c_str out.path = some (DIR_SEP :: b) ∧ out.owned = true := by
  have e1 := cpfs_path_create_eq [] (by decide) p1 h1
  have e2 := cpfs_path_create_eq b hb p2 h2
  subst e1 e2
  have hpos : 0 < b.length := List.length_pos.mpr hne
  refine ⟨_, cpfs_path_join_some fresh _ _ (by simp) (by simp [literal]), ?_, rfl⟩
  simp only [List.length_nil, List.take_zero, hpos, if_true, take_literal, List.nil_append]
  exact c_str_written ([DIR_SEP] ++ b) _ (nulFree_append nulFree_sep hb)

theorem cpfs_path_join_literal (fresh : Nat → CpfsChar) (a b : List CpfsChar) :
    ∃ junk, cpfs_path_join fresh { size := a.length, path := literal a, owned := false }
        { size := b.length, path := literal b, owned := false } = some
      { size := a.length + b.length + 1 + (if a.length > 0 ∧ b.length > 0 then 1 else 0)
        path := (a ++ (if 0 < b.length then [DIR_SEP] else []) ++ b ++ [0]) ++ junk
        owned := true } ∧
      junk.length = (if 0 < b.length then 0 else 1) := by
  have h := cpfs_path_join_some fresh { size := a.length, path := literal a, owned := false }
    { size := b.length, path := literal b, owned := false } (by simp [literal]) (by simp [literal])
  simp only [take_literal] at h
  refine ⟨_, h, ?_⟩
  simp only [List.length_drop, malloc_length]
  split <;> omega

/-- The text written by `cpfs_path_join` for two paths built by
`cpfs_path_create`: the separator is written whenever the second is non-empty. -/
theorem cpfs_path_join_text (fresh : Nat → CpfsChar) (a b : List CpfsChar)
    (ha : NulFree a) (hb : NulFree b) :
    ∃ out, cpfs_path_join fresh (pathOf a) (pathOf b) = some out ∧
      c_str out.path = some (a ++ (if 0 < b.length then [DIR_SEP] else []) ++ b) ∧
      out.owned = true := by
  obtain ⟨junk, hj, _⟩ := cpfs_path_join_literal fresh a b
  refine ⟨_, hj, ?_, rfl⟩
  have hs : NulFree (if 0 < b.length then [DIR_SEP] else []) := by
    split <;> decide
  exact c_str_written _ junk (nulFree_append (nulFree_append ha hs) hb)

theorem nulFree_optsep (n : Nat) : NulFree (if 0 < n then [DIR_SEP] else []) := by
  split <;> decide

/-- Claim C6, where the code departs from it: for paths built by
`cpfs_path_create` from a non-empty NUL-free `a` and a NUL-free `b`, the
`size` field of the path produced by `cpfs_path_join` is one more than the
number of characters before the terminating NUL of its buffer. -/
theorem cpfs_path_join_size (fresh : Nat → CpfsChar) (a b : List CpfsChar)
    (ha : NulFree a) (hb : NulFree b) (hne : a ≠ []) (p1 p2 : CpfsPath)
    (h1 : cpfs_path_create (literal a) = some p1)
    (h2 : cpfs_path_create (literal b) = some p2) :
    ∃ out n, cpfs_path_join fresh p1 p2 = some out ∧
      strlen out.path = some n ∧ out.size = n + 1 := by
  have e1 := cpfs_path_create_eq a ha p1 h1
  have e2 := cpfs_path_create_eq b hb p2 h2
  subst e1 e2
  have hpos : 0 < a.length := List.length_pos.mpr hne
  obtain ⟨junk, hj, _⟩ := cpfs_path_join_literal fresh a b
  refine ⟨_, (a ++ (if 0 < b.length then [DIR_SEP] else []) ++ b).length, hj, ?_, ?_⟩
  · simp only [strlen]
    rw [c_str_written _ _ (nulFree_append (nulFree_append ha (nulFree_optsep _)) hb)]
    rfl
  · simp only [hpos, true_and, gt_iff_lt]
    by_cases hb0 : 0 < b.length
    · simp [hb0]
      omega
    · simp [hb0]

theorem c_str_written5 (w x y z u : List CpfsChar) (h : NulFree w) :
    c_str (w ++ [0] ++ x ++ y ++ z ++ u) = some w := by
  simp only [List.append_assoc]
  exact c_str_append_nul w _ h

/-- Claim C7, where the code departs from it: for non-empty NUL-free `a` and
`b` and NUL-free `c`, the text of `cpfs_path_join(cpfs_path_join(a, b), c)` is
`a`, separator, `b`: the copy of the first operand takes its `size` cells,
which include its terminating NUL, so what is appended lies behind that NUL. -/
theorem cpfs_path_join_nested (fresh : Nat → CpfsChar) (a b c : List CpfsChar)
    (ha : NulFree a) (hb : NulFree b) (hc : NulFree c) (hna : a ≠ []) (hnb : b ≠ [])
    (p1 p2 p3 : CpfsPath)
    (h1 : cpfs_path_create (literal a) = some p1)
    (h2 : cpfs_path_create (literal b) = some p2)
    (h3 : cpfs_path_create (literal c) = some p3) :
    ∃ q out, cpfs_path_join fresh p1 p2 = some q ∧ cpfs_path_join fresh q p3 = some out ∧
      c_str out.path = some (a ++ DIR_SEP :: b) := by
  have e1 := cpfs_path_create_eq a ha p1 h1
  have e2 := cpfs_path_create_eq b hb p2 h2
  have e3 := cpfs_path_create_eq c hc p3 h3
  subst e1 e2 e3
  have hpa : 0 < a.length := List.length_pos.mpr hna
  have hpb : 0 < b.length := List.length_pos.mpr hnb
  obtain ⟨junk, hj, lj⟩ := cpfs_path_join_literal fresh a b
  simp only [hpa, hpb, if_true, and_self, gt_iff_lt] at hj lj
  have hjunk : junk = [] := List.length_eq_zero.mp lj
  subst hjunk
  have hq := cpfs_path_join_some fresh
    { size := a.length + b.length + 1 + 1, path := a ++ [DIR_SEP] ++ b ++ [0] ++ [], owned := true }
    { size := c.length, path := literal c, owned := false }
    (by simp; omega) (by simp [literal])
  refine ⟨_, _, hj, hq, ?_⟩
  have e : List.take (a.length + b.length + 1 + 1) (a ++ [DIR_SEP] ++ b ++ [0] ++ [])
      = (a ++ DIR_SEP :: b) ++ [0] := by
    rw [List.take_of_length_le (by simp; omega)]
    simp
  show c_str (List.take (a.length + b.length + 1 + 1) (a ++ [DIR_SEP] ++ b ++ [0] ++ []) ++ _ ++ _
    ++ _ ++ _) = _
  rw [e]
  exact c_str_written5 _ _ _ _ _ (nulFree_append ha (nulFree_append nulFree_sep hb))

/-! ## The loops of `cpfs_join` -/

theorem for_uchar_eq_run {σ : Type} (nargs : Nat) (body : Nat → σ → Res σ)
    (hn : nargs ≤ 255) :
    ∀ (fuel i : Nat) (st : σ), i ≤ nargs → nargs - i < fuel →
      for_uchar nargs body fuel i st = run_in_order body (List.range' i (nargs - i)) st := by
  intro fuel
  induction fuel with
  | zero => intro i st _ h; omega
  | succ fuel ih =>
    intro i st hi hf
    unfold for_uchar
    by_cases hlt : i < nargs
    · have hmod : (i + 1) % 256 = i + 1 := Nat.mod_eq_of_lt (by omega)
      have hr : List.range' i (nargs - i) = i :: List.range' (i + 1) (nargs - (i + 1)) := by
        have : nargs - i = (nargs - (i + 1)) + 1 := by omega
        rw [this, List.range'_succ]
      rw [if_pos hlt, hr, hmod]
      simp only [run_in_order]
      cases hb : body i st with
      | ok st' =>
        simp only [Res.bind]
        exact ih (i + 1) st' (by omega) (by omega)
      | fault => rfl
      | timeout => rfl
    · have : nargs - i = 0 := by omega
      rw [if_neg hlt, this]
      rfl

theorem for_uchar_never_ok {σ : Type} (nargs : Nat) (body : Nat → σ → Res σ)
    (hn : 256 ≤ nargs) :
    ∀ (fuel i : Nat) (st r : σ), i < 256 → for_uchar nargs body fuel i st ≠ Res.ok r := by
  intro fuel
  induction fuel with
  | zero =>
    intro i st r _
    simp [for_uchar]
  | succ fuel ih =>
    intro i st r hi
    unfold for_uchar
    rw [if_pos (by omega)]
    cases hb : body i st with
    | ok st' => exact ih _ st' r (Nat.mod_lt _ (by norm_num))
    | fault => simp
    | timeout => simp


theorem cpfs_join_body1_eq (i : Nat) (c : List CpfsChar) (hc : NulFree c)
    (argp P rP : List (List CpfsChar)) (x : List CpfsChar) (S rS : List Nat) (y : Nat)
    (t : Int) (o : List CpfsChar) (cur : Nat) (hP : i = P.length) (hS : i = S.length) :
    cpfs_join_body1 i
      { argp := literal c :: argp, paths := P ++ x :: rP, sizes := S ++ y :: rS,
        total_size := t, out := o, cur := cur } =
    Res.ok
      { argp := argp, paths := (P ++ [literal c]) ++ rP, sizes := (S ++ [c.length]) ++ rS,
        total_size := t + (if c.length = 0 then 0 else (c.length : Int) + 1),
        out := o, cur := cur } := by
  unfold cpfs_join_body1 va_arg
  simp only [Option.bind_eq_bind, Option.some_bind]
  rw [store_at P (x :: rP) i (literal c) hP (by simp), strlen_literal c hc]
  simp only [Option.some_bind]
  rw [store_at S (y :: rS) i c.length hS (by simp)]
  simp [Res.ofOption]

theorem cpfs_join_loop1 (l : List (List CpfsChar)) (hl : ∀ c ∈ l, NulFree c) :
    ∀ (k : Nat) (argp P rP : List (List CpfsChar)) (S rS : List Nat) (t : Int)
      (o : List CpfsChar) (cur : Nat),
      k = P.length → k = S.length → rP.length = l.length → rS.length = l.length →
      run_in_order cpfs_join_body1 (List.range' k l.length)
        { argp := l.map literal ++ argp, paths := P ++ rP, sizes := S ++ rS,
          total_size := t, out := o, cur := cur } =
      Res.ok
        { argp := argp, paths := P ++ l.map literal, sizes := S ++ l.map List.length,
          total_size := t + join_total l, out := o, cur := cur } := by
  induction l with
  | nil =>
    intro k argp P rP S rS t o cur _ _ h1 h2
    have e1 : rP = [] := List.length_eq_zero.mp h1
    have e2 : rS = [] := List.length_eq_zero.mp h2
    subst e1 e2
    simp [run_in_order, join_total]
  | cons c cs ih =>
    intro k argp P rP S rS t o cur hP hS h1 h2
    have hc : NulFree c := hl c (by simp)
    have hcs : ∀ d ∈ cs, NulFree d := fun d hd => hl d (by simp [hd])
    cases rP with
    | nil => simp at h1
    | cons x rP =>
      cases rS with
      | nil => simp at h2
      | cons y rS =>
        simp only [List.length_cons, List.range'_succ, run_in_order, List.map_cons,
          List.cons_append]
        rw [cpfs_join_body1_eq k c hc _ P rP x S rS y t o cur hP hS]
        simp only [Res.bind]
        rw [ih hcs (k + 1) argp (P ++ [literal c]) rP (S ++ [c.length]) rS _ o cur
          (by simp [hP]) (by simp [hS]) (by simpa using h1) (by simpa using h2)]
        simp [join_total, add_assoc]

/-! ## The variadic join -/

theorem join_total_nonneg (l : List (List CpfsChar)) : 0 ≤ join_total l := by
  induction l with
  | nil => simp [join_total]
  | cons c cs ih =>
    simp only [join_total]
    split <;> omega

theorem filter_eq_nil_of_total (l : List (List CpfsChar)) (h : join_total l = 0) :
    l.filter (fun c => c ≠ []) = [] := by
  induction l with
  | nil => rfl
  | cons c cs ih =>
    simp only [join_total] at h
    have h0 := join_total_nonneg cs
    by_cases hc : c.length = 0
    · have : c = [] := List.length_eq_zero.mp hc
      subst this
      simp only [hc, if_true, zero_add] at h
      simpa using ih h
    · simp only [hc, if_false] at h
      omega

theorem filter_ne_nil_of_total (l : List (List CpfsChar)) (h : 0 < join_total l) :
    l.filter (fun c => c ≠ []) ≠ [] := by
  induction l with
  | nil => simp [join_total] at h
  | cons c cs ih =>
    by_cases hc : c = []
    · subst hc
      simp only [join_total, List.length_nil, if_true, zero_add] at h
      simpa using ih h
    · simp [hc]

theorem joined_nil_cons (cs : List (List CpfsChar)) : joined ([] :: cs) = joined cs := by
  simp [joined]

theorem joined_last (c : List CpfsChar) (cs : List (List CpfsChar)) (hc : c ≠ [])
    (h : join_total cs = 0) : joined (c :: cs) = c := by
  unfold joined
  rw [List.filter_cons_of_pos (by simpa using hc), filter_eq_nil_of_total cs h]
  simp [List.intercalate, List.intersperse]

theorem joined_more (c : List CpfsChar) (cs : List (List CpfsChar)) (hc : c ≠ [])
    (h : 0 < join_total cs) : joined (c :: cs) = c ++ DIR_SEP :: joined cs := by
  have hne := filter_ne_nil_of_total cs h
  unfold joined
  simp only [hc, ne_eq, not_false_eq_true, decide_True, List.filter_cons_of_pos]
  cases hf : List.filter (fun c => decide (c ≠ [])) cs with
  | nil => exact absurd hf hne
  | cons y ys => simp [List.intercalate, List.intersperse]

theorem joined_of_total_zero (l : List (List CpfsChar)) (h : join_total l = 0) :
    joined l = [] := by
  unfold joined
  rw [filter_eq_nil_of_total l h]
  rfl

theorem joined_length (l : List (List CpfsChar)) (h : 0 < join_total l) :
    ((joined l).length : Int) + 1 = join_total l := by
  induction l with
  | nil => simp [join_total] at h
  | cons c cs ih =>
    by_cases hc : c = []
    · subst hc
      rw [joined_nil_cons]
      simp only [join_total, List.length_nil, if_true, zero_add] at h ⊢
      exact ih h
    · have hc0 : c.length ≠ 0 := fun h0 => hc (List.length_eq_zero.mp h0)
      have h0 := join_total_nonneg cs
      by_cases ht : join_total cs = 0
      · rw [joined_last c cs hc ht]
        simp [join_total, hc0, ht]
      · have hpos : 0 < join_total cs := by omega
        rw [joined_more c cs hc hpos]
        have := ih hpos
        simp only [join_total, hc0, if_false, List.length_append, List.length_cons]
        push_cast
        omega

theorem nulFree_joined (l : List (List CpfsChar)) (hl : ∀ c ∈ l, NulFree c) :
    NulFree (joined l) := by
  induction l with
  | nil => simp [joined, List.intercalate, NulFree]
  | cons c cs ih =>
    have hc : NulFree c := hl c (by simp)
    have hcs : ∀ d ∈ cs, NulFree d := fun d hd => hl d (by simp [hd])
    have h0 := join_total_nonneg cs
    by_cases hce : c = []
    · subst hce
      rw [joined_nil_cons]
      exact ih hcs
    · by_cases ht : join_total cs = 0
      · rw [joined_last c cs hce ht]
        exact hc
      · rw [joined_more c cs hce (by omega)]
        exact nulFree_append hc (nulFree_append nulFree_sep (ih hcs))


theorem getElem?_at {α : Type} (P rest : List α) (x : α) (i : Nat) (h : i = P.length) :
    (P ++ x :: rest)[i]? = some x := by
  subst h
  rw [List.getElem?_append_right (Nat.le_refl _)]
  simp

theorem cpfs_join_body2_skip (i : Nat) (st : JoinState) (h : st.sizes[i]? = some 0) :
    cpfs_join_body2 i st = Res.ok st := by
  unfold cpfs_join_body2
  simp [h, Res.ofOption]

theorem cpfs_join_skip (l : List (List CpfsChar)) (hl : join_total l = 0) :
    ∀ (k : Nat) (argp P : List (List CpfsChar)) (S : List Nat) (t : Int)
      (o : List CpfsChar) (cur : Nat), k = S.length →
      run_in_order cpfs_join_body2 (List.range' k l.length)
        { argp := argp, paths := P, sizes := S ++ l.map List.length,
          total_size := t, out := o, cur := cur } =
      Res.ok
        { argp := argp, paths := P, sizes := S ++ l.map List.length,
          total_size := t, out := o, cur := cur } := by
  induction l with
  | nil =>
    intro k argp P S t o cur _
    simp [run_in_order]
  | cons c cs ih =>
    intro k argp P S t o cur hS
    have h0 := join_total_nonneg cs
    have hc : c.length = 0 := by
      by_contra hc
      simp only [join_total, hc, if_false] at hl
      omega
    have hcs : join_total cs = 0 := by
      simpa [join_total, hc] using hl
    simp only [List.length_cons, List.range'_succ, run_in_order, List.map_cons]
    rw [cpfs_join_body2_skip k _ (by rw [hc]; exact getElem?_at S _ 0 k hS)]
    simp only [Res.bind]
    have := ih hcs (k + 1) argp P (S ++ [c.length]) t o cur (by simp [hS])
    simpa [hc] using this

theorem cpfs_join_body2_copy (i : Nat) (c : List CpfsChar) (hc : c ≠ [])
    (argp paths : List (List CpfsChar)) (sizes : List Nat) (t : Int)
    (W rest : List CpfsChar) (hs : sizes[i]? = some c.length)
    (hp : paths[i]? = some (literal c)) (hr : c.length + 1 ≤ rest.length) :
    ∃ rest', cpfs_join_body2 i
      { argp := argp, paths := paths, sizes := sizes, total_size := t,
        out := W ++ rest, cur := W.length } =
    Res.ok
      { argp := argp, paths := paths, sizes := sizes, total_size := t,
        out := (W ++ c ++ (if ((W.length + c.length : Nat) : Int) < t - 1 then [DIR_SEP] else [])) ++ rest',
        cur := (W ++ c ++ (if ((W.length + c.length : Nat) : Int) < t - 1 then [DIR_SEP] else [])).length } ∧
      rest'.length = rest.length - (c ++ (if ((W.length + c.length : Nat) : Int) < t - 1 then [DIR_SEP] else [])).length := by
  have hc0 : c.length ≠ 0 := fun h0 => hc (List.length_eq_zero.mp h0)
  unfold cpfs_join_body2
  simp only [hs, hp, Option.bind_eq_bind, Option.some_bind, hc0, if_false]
  obtain ⟨r1, e1, l1⟩ := memcpy_ex W rest (literal c) W.length c.length rfl
    (by simp [literal]) (by omega)
  rw [e1, take_literal]
  simp only [Option.some_bind]
  by_cases hlt : ((W.length + c.length : Nat) : Int) < t - 1
  · simp only [hlt, if_true]
    obtain ⟨r2, e2, l2⟩ := store_ex (W ++ c) r1 (W.length + c.length) DIR_SEP (by simp)
      (by omega)
    rw [e2]
    refine ⟨r2, ?_, ?_⟩
    · simp [Res.ofOption]
      omega
    · simp
      omega
  · simp only [hlt, if_false]
    refine ⟨r1, ?_, ?_⟩
    · simp [Res.ofOption]
    · simp
      omega


theorem cpfs_join_loop2 (l : List (List CpfsChar)) :
    ∀ (k : Nat) (argp P : List (List CpfsChar)) (S : List Nat) (t : Int)
      (W rest : List CpfsChar),
      k = P.length → k = S.length → t = (W.length : Int) + join_total l →
      join_total l ≤ (rest.length : Int) →
      ∃ rest', run_in_order cpfs_join_body2 (List.range' k l.length)
        { argp := argp, paths := P ++ l.map literal, sizes := S ++ l.map List.length,
          total_size := t, out := W ++ rest, cur := W.length } =
      Res.ok
        { argp := argp, paths := P ++ l.map literal, sizes := S ++ l.map List.length,
          total_size := t, out := (W ++ joined l) ++ rest', cur := (W ++ joined l).length } ∧
      rest'.length = rest.length - (joined l).length := by
  induction l with
  | nil =>
    intro k argp P S t W rest _ _ _ _
    refine ⟨rest, ?_, ?_⟩
    · simp [run_in_order, joined, List.intercalate]
    · simp [joined, List.intercalate]
  | cons c cs ih =>
    intro k argp P S t W rest hP hS ht hr
    have h0 := join_total_nonneg cs
    simp only [List.length_cons, List.range'_succ, run_in_order, List.map_cons]
    have eP : P ++ literal c :: List.map literal cs = (P ++ [literal c]) ++ List.map literal cs := by
      simp
    have eS : S ++ c.length :: List.map List.length cs = (S ++ [c.length]) ++ List.map List.length cs := by
      simp
    by_cases hc : c = []
    · subst hc
      rw [cpfs_join_body2_skip k _ (getElem?_at S _ _ k hS)]
      simp only [Res.bind, joined_nil_cons]
      rw [eP, eS]
      exact ih (k + 1) argp (P ++ [literal []]) (S ++ [([] : List CpfsChar).length]) t W rest
        (by simp [hP]) (by simp [hS]) (by simpa [join_total] using ht)
        (by simpa [join_total] using hr)
    · have hc0 : c.length ≠ 0 := fun h0 => hc (List.length_eq_zero.mp h0)
      simp only [join_total, hc0, if_false] at ht hr
      obtain ⟨r1, e1, l1⟩ := cpfs_join_body2_copy k c hc argp (P ++ literal c :: List.map literal cs)
        (S ++ c.length :: List.map List.length cs) t W rest (getElem?_at S _ _ k hS)
        (getElem?_at P _ _ k hP) (by omega)
      rw [e1]
      simp only [Res.bind]
      by_cases hpos : 0 < join_total cs
      · have hlt : ((W.length + c.length : Nat) : Int) < t - 1 := by
          push_cast
          omega
        simp only [hlt, if_true] at l1 ⊢
        rw [eP, eS]
        obtain ⟨r2, e2, l2⟩ := ih (k + 1) argp (P ++ [literal c]) (S ++ [c.length]) t
          (W ++ c ++ [DIR_SEP]) r1 (by simp [hP]) (by simp [hS])
          (by simp only [List.length_append, List.length_singleton]; push_cast; omega)
          (by simp only [List.length_append, List.length_singleton] at l1; omega)
        rw [e2]
        refine ⟨r2, ?_, ?_⟩
        · simp [joined_more c cs hc hpos]
        · rw [l2, l1, joined_more c cs hc hpos]
          simp
          omega
      · have hz : join_total cs = 0 := by omega
        have hlt : ¬ ((W.length + c.length : Nat) : Int) < t - 1 := by
          push_cast
          omega
        simp only [hlt, if_false, List.append_nil] at l1 ⊢
        rw [eS, cpfs_join_skip cs hz (k + 1) argp _ (S ++ [c.length]) t _ _ (by simp [hS])]
        refine ⟨r1, ?_, ?_⟩
        · simp [joined_last c cs hc hz]
        · rw [l1, joined_last c cs hc hz]

/-- Claim C1: for every argument count `n` with `1 ≤ n ≤ 255` and every `n`
NUL-free components, `cpfs_join(n, c1, ..., cn)` returns (its loops need
`n + 1` tests of the loop condition each) a string made of exactly the
non-empty components, in order, with one `DIR_SEP` between each consecutive
pair of them and nothing before the first or after the last; empty components
contribute nothing, and with all components empty the string is empty. -/
theorem cpfs_join_spec (fresh : Nat → CpfsChar) (comps : List (List CpfsChar))
    (h1 : 1 ≤ comps.length) (h255 : comps.length ≤ 255) (hnul : ∀ c ∈ comps, NulFree c)
    (fuel : Nat) (hf : comps.length < fuel) :
    ∃ out, cpfs_join fresh fuel comps.length (List.map literal comps) = Res.ok out ∧
      c_str out = some (joined comps) := by
  unfold cpfs_join
  rw [if_pos (by omega)]
  dsimp only
  rw [for_uchar_eq_run comps.length _ h255 fuel 0 _ (by omega) (by omega)]
  have l1 := cpfs_join_loop1 comps hnul 0 [] [] (malloc (fun _ => []) comps.length) []
    (malloc fresh comps.length) 0 [] 0 rfl rfl (malloc_length _ _) (malloc_length _ _)
  simp only [List.append_nil, List.nil_append, Nat.sub_zero, zero_add] at l1 ⊢
  rw [l1]
  simp only [Res.bind]
  rw [for_uchar_eq_run comps.length _ h255 fuel 0 _ (by omega) (by omega)]
  have h0 := join_total_nonneg comps
  have lm := malloc_length fresh (if join_total comps = 0 then 1 else (join_total comps).toNat)
  generalize malloc fresh (if join_total comps = 0 then 1 else (join_total comps).toNat) = m at lm
  obtain ⟨r2, e2, l2⟩ := cpfs_join_loop2 comps 0 [] [] [] (join_total comps) [] m rfl rfl
    (by simp) (by
      rw [lm]
      split
      · omega
      · omega)
  simp only [List.append_nil, List.nil_append, Nat.sub_zero, List.length_nil] at e2 ⊢
  rw [e2]
  simp only [Res.bind]
  have hr2 : 0 < r2.length := by
    rw [l2, lm]
    by_cases hz : join_total comps = 0
    · simp [hz, joined_of_total_zero comps hz]
    · have := joined_length comps (by omega)
      simp only [hz, if_false]
      omega
  obtain ⟨r3, e3, _⟩ := store_ex (joined comps) r2 (joined comps).length 0 rfl hr2
  rw [e3]
  exact ⟨_, rfl, c_str_written _ _ (nulFree_joined comps hnul)⟩

/-! ## Pathname resolution -/

theorem components_ne_nil (t : List CpfsChar) : components t ≠ [] := by
  cases t with
  | nil => simp [components]
  | cons c cs =>
    unfold components
    split
    · simp
    · split <;> simp

theorem components_append_sep (a b : List CpfsChar) :
    components (a ++ DIR_SEP :: b) = components a ++ components b := by
  induction a with
  | nil => simp [components]
  | cons c cs ih =>
    by_cases hc : c = DIR_SEP
    · simp [components, hc, ih]
    · simp only [List.cons_append, components, hc, if_false, ih]
      cases h : components cs with
      | nil => exact absurd h (components_ne_nil cs)
      | cons x xs => simp [ih, h]

theorem components_sepfree (c : List CpfsChar) (h : DIR_SEP ∉ c) : components c = [c] := by
  induction c with
  | nil => rfl
  | cons x xs ih =>
    have hx : x ≠ DIR_SEP := fun e => h (by simp [e])
    have hxs : DIR_SEP ∉ xs := fun e => h (by simp [e])
    simp [components, hx, ih hxs]

theorem walk_append (fs : FS) (xs ys : List Name) :
    ∀ loc, fs.walk loc (xs ++ ys) = (fs.walk loc xs).bind fun l => fs.walk l ys := by
  induction xs with
  | nil => intro loc; simp [FS.walk]
  | cons x xs ih =>
    intro loc
    simp only [List.cons_append, FS.walk]
    split
    · split
      · exact ih loc
      · split
        · exact ih _
        · exact ih _
    · rfl

theorem walk_mono (s s0 : FS) (h : ∀ loc, s.isDir loc = true → s0.isDir loc = true)
    (xs : List Name) :
    ∀ loc L, s.walk loc xs = some L → s0.walk loc xs = some L := by
  induction xs with
  | nil => intro loc L hw; simpa [FS.walk] using hw
  | cons x xs ih =>
    intro loc L hw
    simp only [FS.walk] at hw ⊢
    by_cases hd : s.isDir loc = true
    · rw [if_pos hd] at hw
      rw [if_pos (h loc hd)]
      split
      · rename_i h1
        rw [if_pos h1] at hw
        exact ih _ _ hw
      · rename_i h1
        rw [if_neg h1] at hw
        split
        · rename_i h2
          rw [if_pos h2] at hw
          exact ih _ _ hw
        · rename_i h2
          rw [if_neg h2] at hw
          exact ih _ _ hw
    · rw [if_neg hd] at hw
      cases hw

theorem isDir_mono (s s0 : FS) (h : ∀ n ∈ s.nodes, n ∈ s0.nodes) (loc : Loc)
    (hd : s.isDir loc = true) : s0.isDir loc = true := by
  simp only [FS.isDir, Bool.or_eq_true, decide_eq_true_eq, List.any_eq_true, Bool.and_eq_true] at hd ⊢
  rcases hd with hd | ⟨n, hn, h1⟩
  · exact Or.inl hd
  · exact Or.inr ⟨n, h n hn, h1⟩

theorem isEntry_mono (s s0 : FS) (h : ∀ n ∈ s.nodes, n ∈ s0.nodes) (loc : Loc)
    (hd : s.isEntry loc = true) : s0.isEntry loc = true := by
  simp only [FS.isEntry, Bool.or_eq_true, decide_eq_true_eq, List.any_eq_true] at hd ⊢
  rcases hd with hd | ⟨n, hn, h1⟩
  · exact Or.inl hd
  · exact Or.inr ⟨n, h n hn, h1⟩

theorem resolve_mono (s s0 : FS) (hc : s.cwd = s0.cwd) (h : ∀ n ∈ s.nodes, n ∈ s0.nodes)
    (t : List CpfsChar) (L : Loc) (hr : s.resolve t = some L) : s0.resolve t = some L := by
  cases t with
  | nil => simp [FS.resolve] at hr
  | cons c cs =>
    simp only [FS.resolve] at hr ⊢
    cases hw : s.walk (if c = DIR_SEP then [] else s.cwd) (components (c :: cs)) with
    | none => simp [hw] at hr
    | some l =>
      simp only [hw] at hr
      by_cases he : s.isEntry l = true
      · rw [if_pos he] at hr
        injection hr with hr
        subst hr
        have hw0 := walk_mono s s0 (isDir_mono s s0 h) _ _ _ hw
        rw [hc] at hw0
        simp only [hw0, isEntry_mono s s0 h l he, if_true]
      · rw [if_neg he] at hr
        cases hr

/-- Resolution of `a/c` once `a` resolves to `D`. -/
theorem resolve_child (fs : FS) (a c : List CpfsChar) (D : Loc) (hc : DIR_SEP ∉ c)
    (hr : fs.resolve a = some D) :
    fs.resolve (a ++ DIR_SEP :: c) =
      match fs.walk D [c] with
      | none => none
      | some l => if fs.isEntry l then some l else none := by
  cases a with
  | nil => simp [FS.resolve] at hr
  | cons x xs =>
    simp only [FS.resolve, List.cons_append] at hr ⊢
    cases hw : fs.walk (if x = DIR_SEP then [] else fs.cwd) (components (x :: xs)) with
    | none => simp [hw] at hr
    | some l =>
      simp only [hw] at hr
      by_cases he : fs.isEntry l = true
      · rw [if_pos he] at hr
        injection hr with hr
        subst hr
        have e : components (x :: (xs ++ DIR_SEP :: c)) = components (x :: xs) ++ [c] := by
          rw [← List.cons_append, components_append_sep, components_sepfree c hc]
        rw [e, walk_append, hw]
        rfl
      · rw [if_neg he] at hr
        cases hr

theorem resolve_isEntry (fs : FS) (a : List CpfsChar) (D : Loc) (hr : fs.resolve a = some D) :
    fs.isEntry D = true := by
  cases a with
  | nil => simp [FS.resolve] at hr
  | cons x xs =>
    simp only [FS.resolve] at hr
    split at hr
    · cases hr
    · split at hr
      · rename_i h
        injection hr with hr
        subst hr
        exact h
      · cases hr

theorem resolve_ne_nil (fs : FS) (a : List CpfsChar) (D : Loc) (hr : fs.resolve a = some D) :
    a ≠ [] := by
  intro h
  subst h
  simp [FS.resolve] at hr

/-! ## The walk and the self entry -/

theorem cpfs_dir_type_directory (d : Option (List Dirent)) (e : Dirent) :
    cpfs_dir_type { dir := d, entry := some e } = some CpfsFileType.CPFS_FT_DIRECTORY ↔
      e.d_type = DT_DIR := by
  unfold cpfs_dir_type
  simp only [DT_BLK, DT_CHR, DT_DIR, DT_FIFO, DT_LNK, DT_REG, DT_SOCK, Option.some.injEq]
  constructor
  · intro h
    split_ifs at h
    assumption
  · intro h
    simp [h]

theorem cpfs_dir_name_literal (d : Option (List Dirent)) (c : List CpfsChar) (ty : Nat)
    (hc : NulFree c) :
    cpfs_dir_name { dir := d, entry := some { d_name := literal c, d_type := ty } } =
      some { size := c.length, path := literal c, owned := false } := by
  simp [cpfs_dir_name, strlen_literal c hc]

/-- Joining an entry name onto a path whose text ends before `size` cells:
the text of the result is the text of the path. -/
theorem cpfs_path_join_long (fresh : Nat → CpfsChar) (q en out : CpfsPath)
    (T rest : List CpfsChar) (hq : q.path = T ++ 0 :: rest) (hs : T.length < q.size)
    (hj : cpfs_path_join fresh q en = some out) :
    ∃ rest', out.path = T ++ 0 :: rest' ∧ T.length < out.size ∧
      (en.size ≠ 0 → out.size = out.path.length) := by
  obtain ⟨b1, b2⟩ := cpfs_path_join_bounds fresh q en out hj
  rw [cpfs_path_join_some fresh q en b1 b2] at hj
  injection hj with hj
  subst hj
  obtain ⟨k, hk⟩ : ∃ k, q.size = T.length + (k + 1) := ⟨q.size - T.length - 1, by omega⟩
  have ht : List.take q.size q.path = T ++ 0 :: List.take k rest := by
    rw [hq, hk, List.take_append, List.take_succ_cons]
  refine ⟨List.take k rest ++ ((if 0 < en.size then [DIR_SEP] else []) ++
      List.take en.size en.path ++ [0] ++
      List.drop ((q.size + if 0 < en.size then 1 else 0) + en.size + 1)
        (malloc fresh (q.size + en.size + 2))), ?_, ?_, ?_⟩
  · simp only [ht, List.append_assoc, List.cons_append]
  · simp only
    omega
  · intro hne
    have hpos : 0 < en.size := Nat.pos_of_ne_zero hne
    have hqs : 0 < q.size := by omega
    simp [hpos, hqs, b1, b2, malloc_length]
    omega


/-- Joining a non-empty entry name onto a non-empty path whose `size` is the
length of its text. -/
theorem cpfs_path_join_entry (fresh : Nat → CpfsChar) (p : CpfsPath)
    (a rest c : List CpfsChar) (hp : p.path = a ++ 0 :: rest) (hsz : p.size = a.length)
    (ha : a ≠ []) (hc : c ≠ []) :
    cpfs_path_join fresh p { size := c.length, path := literal c, owned := false } = some
      { size := a.length + c.length + 1 + 1, path := (a ++ DIR_SEP :: c) ++ 0 :: [],
        owned := true } := by
  have hpa : 0 < a.length := List.length_pos.mpr ha
  have hpc : 0 < c.length := List.length_pos.mpr hc
  have h := cpfs_path_join_some fresh p { size := c.length, path := literal c, owned := false }
    (by rw [hp, hsz]; simp) (by simp [literal])
  have ht : List.take a.length p.path = a := by rw [hp, List.take_left' rfl]
  simp only [take_literal, hsz, ht, hpa, hpc, if_true, and_self, gt_iff_lt] at h
  rw [h]
  have hd : List.drop (a.length + 1 + c.length + 1) (malloc fresh (a.length + c.length + 2)) = [] :=
    List.drop_eq_nil_of_le (by rw [malloc_length]; omega)
  rw [hd]
  simp

theorem loop_nil {σ : Type} (os : OS σ) (fresh : Nat → CpfsChar)
    (recurse : σ → CpfsPath → Res (Bool × σ)) (path : CpfsPath) (fuel : Nat) (s : σ)
    (x : Option Dirent) (good : Bool) :
    cpfs_remove_recursive_loop os fresh recurse path (fuel + 1) s { dir := some [], entry := x } good
      = Res.ok (good, s) := by
  simp [cpfs_remove_recursive_loop, cpfs_dir_next]

theorem loop_cons {σ : Type} (os : OS σ) (fresh : Nat → CpfsChar)
    (recurse : σ → CpfsPath → Res (Bool × σ)) (path : CpfsPath) (fuel : Nat) (s : σ)
    (e : Dirent) (rest : List Dirent) (x : Option Dirent) (good : Bool) :
    cpfs_remove_recursive_loop os fresh recurse path (fuel + 1) s
        { dir := some (e :: rest), entry := x } good =
      (cpfs_remove_recursive_body os fresh recurse path s
          { dir := some rest, entry := some e } good).bind fun r =>
        if r.1 then
          cpfs_remove_recursive_loop os fresh recurse path fuel r.2
            { dir := some rest, entry := some e } r.1
        else Res.ok r := by
  simp [cpfs_remove_recursive_loop, cpfs_dir_next]

theorem body_literal {σ : Type} (os : OS σ) (fresh : Nat → CpfsChar)
    (recurse : σ → CpfsPath → Res (Bool × σ)) (path : CpfsPath) (s : σ)
    (d : Option (List Dirent)) (c : List CpfsChar) (ty : Nat) (hc : NulFree c) (good : Bool) :
    cpfs_remove_recursive_body os fresh recurse path s
        { dir := d, entry := some { d_name := literal c, d_type := ty } } good =
      match cpfs_path_join fresh path { size := c.length, path := literal c, owned := false } with
      | none => Res.fault
      | some entry_path =>
        (if ty = DT_DIR then recurse s entry_path else Res.ok (good, s)).bind fun r1 =>
          if r1.1 then Res.ofOption (cpfs_remove os r1.2 entry_path) else Res.ok r1 := by
  unfold cpfs_remove_recursive_body
  rw [cpfs_dir_name_literal d c ty hc]
  simp only [cpfs_dir_type_directory]

theorem posix_dir_create (fs : FS) (q : CpfsPath) (T : List CpfsChar) (D : Loc)
    (hT : c_str q.path = some T) (hr : fs.resolve T = some D) (hd : fs.isDir D = true) :
    cpfs_dir_create posix fs q =
      some (true, { dir := some (fs.stream D), entry := none }, fs) := by
  simp [cpfs_dir_create, hT, posix, FS.opendir, hr, hd]

theorem stream_dots (fs : FS) (D : Loc) (h : fs.dots = true) :
    ∃ more, fs.stream D = { d_name := literal DOT, d_type := DT_DIR } :: more := by
  simp [FS.stream, h]

/-- On a filesystem that reports the self entry, a call on a path whose text
ends before `size` cells never completes. -/
theorem remove_recursive_dots_long (fresh : Nat → CpfsChar) (fs : FS) (hdots : fs.dots = true) :
    ∀ (fuel : Nat) (q : CpfsPath) (T rest : List CpfsChar) (D : Loc),
      q.path = T ++ 0 :: rest → NulFree T → T.length < q.size → q.size = q.path.length →
      fs.resolve T = some D → fs.isDir D = true →
      cpfs_remove_recursive posix fresh fuel fs q = Res.timeout := by
  intro fuel
  induction fuel with
  | zero => intros; rfl
  | succ fuel ih =>
    intro q T rest D hq hT hs hlen hr hd
    have hcs : c_str q.path = some T := by rw [hq]; exact c_str_append_nul T rest hT
    unfold cpfs_remove_recursive
    rw [posix_dir_create fs q T D hcs hr hd]
    simp only [if_true]
    obtain ⟨more, hm⟩ := stream_dots fs D hdots
    rw [hm]
    cases fuel with
    | zero => rfl
    | succ f =>
      rw [loop_cons, body_literal _ _ _ _ _ _ DOT DT_DIR (by decide)]
      have hj := cpfs_path_join_some fresh q
        { size := DOT.length, path := literal DOT, owned := false } (by omega) (by decide)
      obtain ⟨r', h1, h2, h3⟩ := cpfs_path_join_long fresh q _ _ T rest hq hs hj
      rw [hj]
      simp only [if_true]
      rw [ih _ T r' D h1 hT h2 (h3 (by decide)) hr hd]
      rfl


theorem resolve_self (fs : FS) (a : List CpfsChar) (D : Loc)
    (hr : fs.resolve a = some D) (hd : fs.isDir D = true) :
    fs.resolve (a ++ DIR_SEP :: DOT) = some D := by
  rw [resolve_child fs a DOT D (by decide) hr]
  simp [FS.walk, hd, resolve_isEntry fs a D hr]

theorem dots_never_return (fresh : Nat → CpfsChar) (fs : FS) (a rest : List CpfsChar)
    (D : Loc) (p : CpfsPath) (hdots : fs.dots = true) (ha : NulFree a)
    (hr : fs.resolve a = some D) (hd : fs.isDir D = true)
    (hp : p.path = a ++ 0 :: rest) (hsz : p.size = a.length) :
    (∀ fuel, cpfs_remove_recursive posix fresh fuel fs p = Res.timeout) ∧
    (∃ q T, cpfs_path_join fresh p { size := 1, path := literal DOT, owned := false } = some q ∧
      c_str q.path = some T ∧ fs.resolve T = some D) := by
  have hne : a ≠ [] := resolve_ne_nil fs a D hr
  have hdl : DOT.length = 1 := rfl
  have hj := cpfs_path_join_entry fresh p a rest DOT hp hsz hne (by decide)
  rw [hdl] at hj
  have hself := resolve_self fs a D hr hd
  have hnul : NulFree (a ++ DIR_SEP :: DOT) := nulFree_append ha (by decide)
  have hcs : c_str p.path = some a := by rw [hp]; exact c_str_append_nul a rest ha
  refine ⟨?_, _, _, hj, c_str_append_nul _ _ hnul, hself⟩
  intro fuel
  cases fuel with
  | zero => rfl
  | succ fuel =>
    unfold cpfs_remove_recursive
    rw [posix_dir_create fs _ a D hcs hr hd]
    simp only [if_true]
    obtain ⟨more, hm⟩ := stream_dots fs D hdots
    rw [hm]
    cases fuel with
    | zero => rfl
    | succ f =>
      rw [loop_cons, body_literal _ _ _ _ _ _ DOT DT_DIR (by decide), hdl, hj]
      simp only [if_true]
      rw [remove_recursive_dots_long fresh fs hdots _ _ (a ++ DIR_SEP :: DOT) [] D rfl hnul
        (by simp [hdl]) (by simp [hdl]) hself hd]
      rfl

/-! ## The calls of a walk -/

theorem failFast_nil : FailFast true [] := by
  constructor
  · intro _ e he
    cases he
  · intro h
    cases h

theorem failFast_single_fail (e : Event) (h : e.success = false) : FailFast false [e] := by
  constructor
  · intro h0
    cases h0
  · intro _
    exact ⟨[], e, rfl, by simp, h⟩

theorem failFast_append (good : Bool) (pre evs : List Event)
    (hpre : FailFast true pre) (h : FailFast good evs) : FailFast good (pre ++ evs) := by
  constructor
  · intro hg e he
    rcases List.mem_append.mp he with h1 | h1
    · exact hpre.1 rfl e h1
    · exact h.1 hg e h1
  · intro hg
    obtain ⟨p, e, h1, h2, h3⟩ := h.2 hg
    refine ⟨pre ++ p, e, by simp [h1], ?_, h3⟩
    intro x hx
    rcases List.mem_append.mp hx with h4 | h4
    · exact hpre.1 rfl x h4
    · exact h2 x h4

theorem failFast_single_ok (e : Event) (h : e.success = true) : FailFast true [e] := by
  constructor
  · intro _ x hx
    simp only [List.mem_singleton] at hx
    subst hx
    exact h
  · intro h0
    cases h0

theorem logged_opendir {σ : Type} (os : OS σ) (forced : Option Nat) (s : σ)
    (log : List Event) (t : List CpfsChar) :
    ∃ d st, (logged os forced).opendir (s, log) t =
      (d, (st, log ++ [Event.opendir t d.isSome])) := by
  unfold logged
  by_cases h : forced = some log.length
  · exact ⟨none, s, by simp [h]⟩
  · exact ⟨(os.opendir s t).1, (os.opendir s t).2, by simp only [h, if_false]⟩

theorem logged_remove {σ : Type} (os : OS σ) (forced : Option Nat) (s : σ)
    (log : List Event) (t : List CpfsChar) :
    ∃ b st, (logged os forced).remove (s, log) t =
      (b, (st, log ++ [Event.remove t b])) := by
  unfold logged
  by_cases h : forced = some log.length
  · exact ⟨false, s, by simp [h]⟩
  · exact ⟨(os.remove s t).1, (os.remove s t).2, by simp only [h, if_false]⟩

/-- One iteration of the loop body logs a fail-fast sequence of calls, when the
recursive call does. -/
theorem body_failFast {σ : Type} (os : OS σ) (forced : Option Nat) (fresh : Nat → CpfsChar)
    (recurse : σ × List Event → CpfsPath → Res (Bool × σ × List Event))
    (hrec : ∀ s log p good s' log', recurse (s, log) p = Res.ok (good, (s', log')) →
      ∃ evs, log' = log ++ evs ∧ FailFast good evs)
    (path : CpfsPath) (s : σ) (log : List Event) (it : CpfsDirIter)
    (good : Bool) (s' : σ) (log' : List Event)
    (h : cpfs_remove_recursive_body (logged os forced) fresh recurse path (s, log) it true
      = Res.ok (good, (s', log'))) :
    ∃ evs, log' = log ++ evs ∧ FailFast good evs := by
  unfold cpfs_remove_recursive_body at h
  cases hn : cpfs_dir_name it with
  | none => simp [hn] at h
  | some en =>
    simp only [hn] at h
    cases hj : cpfs_path_join fresh path en with
    | none => simp [hj] at h
    | some q =>
      simp only [hj] at h
      -- the outcome of the recursive call, or of skipping it
      have key : ∀ r1 : Bool × σ × List Event,
          (∃ evs, r1.2.2 = log ++ evs ∧ FailFast r1.1 evs) →
          (if r1.1 then Res.ofOption (cpfs_remove (logged os forced) r1.2 q) else Res.ok r1)
            = Res.ok (good, (s', log')) →
          ∃ evs, log' = log ++ evs ∧ FailFast good evs := by
        intro r1 hr1 h2
        obtain ⟨evs1, e1, f1⟩ := hr1
        obtain ⟨g1, s1, log1⟩ := r1
        simp only at e1 f1 h2
        cases g1 with
        | false =>
          simp only [Bool.false_eq_true, if_false, Res.ok.injEq, Prod.mk.injEq] at h2
          obtain ⟨hg, hs, hl⟩ := h2
          subst hg hl
          exact ⟨evs1, e1, f1⟩
        | true =>
          simp only [if_true] at h2
          unfold cpfs_remove at h2
          cases hc : c_str q.path with
          | none => simp [hc, Res.ofOption] at h2
          | some T =>
            obtain ⟨b, st, hrm⟩ := logged_remove os forced s1 log1 T
            simp only [hc, Option.map_some', Res.ofOption, hrm, Res.ok.injEq,
              Prod.mk.injEq] at h2
            obtain ⟨hg, hs, hl⟩ := h2
            refine ⟨evs1 ++ [Event.remove T b], ?_, ?_⟩
            · rw [← hl, e1, List.append_assoc]
            · refine failFast_append good evs1 _ f1 ?_
              rw [← hg]
              cases b with
              | false => exact failFast_single_fail _ rfl
              | true => exact failFast_single_ok _ rfl
      by_cases hty : cpfs_dir_type it = some CpfsFileType.CPFS_FT_DIRECTORY
      · simp only [hty, if_true] at h
        cases hr : recurse (s, log) q with
        | fault => simp [hr, Res.bind] at h
        | timeout => simp [hr, Res.bind] at h
        | ok r1 =>
          simp only [hr, Res.bind] at h
          obtain ⟨g1, s1, log1⟩ := r1
          exact key (g1, s1, log1) (hrec s log q g1 s1 log1 hr) h
      · simp only [hty, if_false, Res.bind] at h
        exact key (true, s, log) ⟨[], by simp, failFast_nil⟩ h


theorem loop_failFast {σ : Type} (os : OS σ) (forced : Option Nat) (fresh : Nat → CpfsChar)
    (recurse : σ × List Event → CpfsPath → Res (Bool × σ × List Event))
    (hrec : ∀ s log p good s' log', recurse (s, log) p = Res.ok (good, (s', log')) →
      ∃ evs, log' = log ++ evs ∧ FailFast good evs)
    (path : CpfsPath) :
    ∀ (fuel : Nat) (s : σ) (log : List Event) (it : CpfsDirIter)
      (good : Bool) (s' : σ) (log' : List Event),
      cpfs_remove_recursive_loop (logged os forced) fresh recurse path fuel (s, log) it true
        = Res.ok (good, (s', log')) →
      ∃ evs, log' = log ++ evs ∧ FailFast good evs := by
  intro fuel
  induction fuel with
  | zero =>
    intro s log it good s' log' h
    simp [cpfs_remove_recursive_loop] at h
  | succ fuel ih =>
    intro s log it good s' log' h
    unfold cpfs_remove_recursive_loop at h
    cases hn : cpfs_dir_next it with
    | none => simp [hn] at h
    | some r =>
      obtain ⟨more, it'⟩ := r
      cases more with
      | false =>
        simp only [hn, Res.ok.injEq, Prod.mk.injEq] at h
        obtain ⟨hg, hs, hl⟩ := h
        subst hg hl
        exact ⟨[], by simp, failFast_nil⟩
      | true =>
        simp only [hn] at h
        cases hb : cpfs_remove_recursive_body (logged os forced) fresh recurse path (s, log) it' true with
        | fault => simp [hb, Res.bind] at h
        | timeout => simp [hb, Res.bind] at h
        | ok r1 =>
          obtain ⟨g1, s1, log1⟩ := r1
          simp only [hb, Res.bind] at h
          obtain ⟨evs1, e1, f1⟩ :=
            body_failFast os forced fresh recurse hrec path s log it' g1 s1 log1 hb
          cases g1 with
          | false =>
            simp only [Bool.false_eq_true, if_false, Res.ok.injEq, Prod.mk.injEq] at h
            obtain ⟨hg, hs, hl⟩ := h
            subst hg hl
            exact ⟨evs1, e1, f1⟩
          | true =>
            simp only [if_true] at h
            obtain ⟨evs2, e2, f2⟩ := ih s1 log1 it' good s' log' h
            refine ⟨evs1 ++ evs2, ?_, failFast_append good evs1 evs2 f1 f2⟩
            rw [e2, e1, List.append_assoc]

theorem remove_recursive_failFast {σ : Type} (os : OS σ) (forced : Option Nat) (fresh : Nat → CpfsChar) :
    ∀ (fuel : Nat) (s : σ) (log : List Event) (path : CpfsPath)
      (good : Bool) (s' : σ) (log' : List Event),
      cpfs_remove_recursive (logged os forced) fresh fuel (s, log) path = Res.ok (good, (s', log')) →
      ∃ evs, log' = log ++ evs ∧ FailFast good evs := by
  intro fuel
  induction fuel with
  | zero =>
    intro s log path good s' log' h
    simp [cpfs_remove_recursive] at h
  | succ fuel ih =>
    intro s log path good s' log' h
    unfold cpfs_remove_recursive at h
    unfold cpfs_dir_create at h
    cases hc : c_str path.path with
    | none => simp [hc] at h
    | some T =>
      obtain ⟨d, st, hop⟩ := logged_opendir os forced s log T
      simp only [hc, Option.map_some', hop] at h
      cases d with
      | none =>
        simp only [Option.isSome_none, Bool.false_eq_true, if_false, Res.ok.injEq,
          Prod.mk.injEq] at h
        obtain ⟨hg, hs, hl⟩ := h
        subst hg hl
        exact ⟨_, rfl, failFast_single_fail _ rfl⟩
      | some d =>
        simp only [Option.isSome_some, if_true] at h
        obtain ⟨evs, e, f⟩ := loop_failFast os forced fresh _ ih path fuel _ _ _ good s' log' h
        refine ⟨[Event.opendir T true] ++ evs, ?_, ?_⟩
        · rw [e, List.append_assoc]
        · exact failFast_append good _ evs (failFast_single_ok _ rfl) f

/-! ## Forcing a call to fail -/

theorem logged_none_opendir {σ : Type} (os : OS σ) (s : σ) (log : List Event)
    (t : List CpfsChar) :
    (logged os none).opendir (s, log) t =
      ((os.opendir s t).1,
        ((os.opendir s t).2, log ++ [Event.opendir t (os.opendir s t).1.isSome])) := by
  simp [logged]

theorem logged_none_remove {σ : Type} (os : OS σ) (s : σ) (log : List Event)
    (t : List CpfsChar) :
    (logged os none).remove (s, log) t =
      ((os.remove s t).1, ((os.remove s t).2, log ++ [Event.remove t (os.remove s t).1])) := by
  simp [logged]

theorem agree_opendir {σ : Type} (os : OS σ) (K : Nat) (s : σ) (log : List Event)
    (t : List CpfsChar) (h : K ≠ log.length) :
    (logged os (some K)).opendir (s, log) t = (logged os none).opendir (s, log) t := by
  simp [logged, h]

theorem agree_remove {σ : Type} (os : OS σ) (K : Nat) (s : σ) (log : List Event)
    (t : List CpfsChar) (h : K ≠ log.length) :
    (logged os (some K)).remove (s, log) t = (logged os none).remove (s, log) t := by
  simp [logged, h]

theorem forced_opendir {σ : Type} (os : OS σ) (K : Nat) (s : σ) (log : List Event)
    (t : List CpfsChar) (h : K = log.length) :
    (logged os (some K)).opendir (s, log) t = (none, (s, log ++ [Event.opendir t false])) := by
  simp [logged, h]

theorem forced_remove {σ : Type} (os : OS σ) (K : Nat) (s : σ) (log : List Event)
    (t : List CpfsChar) (h : K = log.length) :
    (logged os (some K)).remove (s, log) t = (false, (s, log ++ [Event.remove t false])) := by
  simp [logged, h]

theorem body_simulates {σ : Type} (os : OS σ) (fresh : Nat → CpfsChar) (K : Nat)
    (recL recK : σ × List Event → CpfsPath → Res (Bool × σ × List Event))
    (hrec : Simulates K recL recK) (path : CpfsPath)
    (s : σ) (log : List Event) (it : CpfsDirIter) (good0 g : Bool) (s' : σ)
    (log' : List Event)
    (h : cpfs_remove_recursive_body (logged os none) fresh recL path (s, log) it good0
      = Res.ok (g, (s', log'))) :
    (∃ evs, log' = log ++ evs) ∧
    ((K < log.length ∨ log'.length ≤ K) →
      cpfs_remove_recursive_body (logged os (some K)) fresh recK path (s, log) it good0
        = Res.ok (g, (s', log'))) ∧
    (log.length ≤ K → K < log'.length →
      ∃ sk ev, cpfs_remove_recursive_body (logged os (some K)) fresh recK path (s, log) it good0
        = Res.ok (false, (sk, log'.take K ++ [ev])) ∧ ev.success = false) := by
  unfold cpfs_remove_recursive_body at h ⊢
  cases hn : cpfs_dir_name it with
  | none => simp [hn] at h
  | some en =>
    simp only [hn] at h ⊢
    cases hj : cpfs_path_join fresh path en with
    | none => simp [hj] at h
    | some q =>
      simp only [hj] at h ⊢
      generalize hXL : (if cpfs_dir_type it = some CpfsFileType.CPFS_FT_DIRECTORY then
          recL (s, log) q else Res.ok (good0, (s, log))) = XL at h
      generalize hXK : (if cpfs_dir_type it = some CpfsFileType.CPFS_FT_DIRECTORY then
          recK (s, log) q else Res.ok (good0, (s, log))) = XK
      cases XL with
      | fault => simp [Res.bind] at h
      | timeout => simp [Res.bind] at h
      | ok r1 =>
        obtain ⟨g1, s1, log1⟩ := r1
        -- the first step on both sides
        have step1 : (∃ evs, log1 = log ++ evs) ∧
            ((K < log.length ∨ log1.length ≤ K) → XK = Res.ok (g1, (s1, log1))) ∧
            (log.length ≤ K → K < log1.length →
              ∃ sk ev, XK = Res.ok (false, (sk, log1.take K ++ [ev])) ∧ ev.success = false) := by
          by_cases hty : cpfs_dir_type it = some CpfsFileType.CPFS_FT_DIRECTORY
          · rw [if_pos hty] at hXL hXK
            rw [← hXK]
            exact hrec s log q g1 s1 log1 hXL
          · rw [if_neg hty] at hXL hXK
            simp only [Res.ok.injEq, Prod.mk.injEq] at hXL
            obtain ⟨e1, e2, e3⟩ := hXL
            subst e1 e2 e3
            refine ⟨⟨[], by simp⟩, fun _ => hXK.symm, fun h1 h2 => ?_⟩
            omega
        obtain ⟨⟨evs1, hext1⟩, hA1, hB1⟩ := step1
        have hlen1 : log.length ≤ log1.length := by rw [hext1]; simp
        simp only [Res.bind] at h
        cases g1 with
        | false =>
          simp only [Bool.false_eq_true, if_false, Res.ok.injEq, Prod.mk.injEq] at h
          obtain ⟨e1, e2, e3⟩ := h
          subst e1 e2 e3
          refine ⟨⟨evs1, hext1⟩, fun hA => ?_, fun h1 h2 => ?_⟩
          · rw [hA1 hA]
            simp [Res.bind]
          · obtain ⟨sk, ev, hk, hev⟩ := hB1 h1 h2
            rw [hk]
            exact ⟨sk, ev, by simp [Res.bind], hev⟩
        | true =>
          simp only [if_true] at h
          unfold cpfs_remove at h
          cases hc : c_str q.path with
          | none => simp [hc, Res.ofOption] at h
          | some T =>
            simp only [hc, Option.map_some', Res.ofOption, logged_none_remove, Res.ok.injEq,
              Prod.mk.injEq] at h
            obtain ⟨e1, e2, e3⟩ := h
            subst e1 e2 e3
            refine ⟨⟨evs1 ++ [Event.remove T (os.remove s1 T).1], by
              rw [hext1, List.append_assoc]⟩, fun hA => ?_, fun h1 h2 => ?_⟩
            · simp only [List.length_append, List.length_singleton] at hA
              rw [hA1 (by omega)]
              simp only [Res.bind, if_true]
              unfold cpfs_remove
              rw [hc]
              simp only [Option.map_some', Res.ofOption]
              rw [agree_remove os K s1 log1 T (by omega), logged_none_remove]
            · simp only [List.length_append, List.length_singleton] at h2
              by_cases hlt : K < log1.length
              · obtain ⟨sk, ev, hk, hev⟩ := hB1 h1 hlt
                rw [hk]
                refine ⟨sk, ev, ?_, hev⟩
                simp only [Res.bind, Bool.false_eq_true, if_false]
                rw [List.take_append_of_le_length (by omega)]
              · rw [hA1 (Or.inr (by omega))]
                simp only [Res.bind, if_true]
                unfold cpfs_remove
                rw [hc]
                simp only [Option.map_some', Res.ofOption]
                rw [forced_remove os K s1 log1 T (by omega)]
                refine ⟨s1, Event.remove T false, ?_, rfl⟩
                have hK : K = log1.length := by omega
                rw [hK, List.take_left']
                rfl


theorem loop_simulates {σ : Type} (os : OS σ) (fresh : Nat → CpfsChar) (K : Nat)
    (recL recK : σ × List Event → CpfsPath → Res (Bool × σ × List Event))
    (hrec : Simulates K recL recK) (path : CpfsPath) :
    ∀ (fuel : Nat) (s : σ) (log : List Event) (it : CpfsDirIter) (good0 g : Bool) (s' : σ)
      (log' : List Event),
      cpfs_remove_recursive_loop (logged os none) fresh recL path fuel (s, log) it good0
        = Res.ok (g, (s', log')) →
      (∃ evs, log' = log ++ evs) ∧
      ((K < log.length ∨ log'.length ≤ K) →
        cpfs_remove_recursive_loop (logged os (some K)) fresh recK path fuel (s, log) it good0
          = Res.ok (g, (s', log'))) ∧
      (log.length ≤ K → K < log'.length →
        ∃ sk ev, cpfs_remove_recursive_loop (logged os (some K)) fresh recK path fuel (s, log)
          it good0 = Res.ok (false, (sk, log'.take K ++ [ev])) ∧ ev.success = false) := by
  intro fuel
  induction fuel with
  | zero =>
    intro s log it good0 g s' log' h
    simp [cpfs_remove_recursive_loop] at h
  | succ fuel ih =>
    intro s log it good0 g s' log' h
    unfold cpfs_remove_recursive_loop at h ⊢
    cases hn : cpfs_dir_next it with
    | none => simp [hn] at h
    | some r =>
      obtain ⟨more, it'⟩ := r
      cases more with
      | false =>
        simp only [hn, Res.ok.injEq, Prod.mk.injEq] at h ⊢
        obtain ⟨e1, e2, e3⟩ := h
        subst e1 e2 e3
        exact ⟨⟨[], by simp⟩, fun _ => ⟨rfl, rfl, rfl⟩, fun h1 h2 => by omega⟩
      | true =>
        simp only [hn] at h ⊢
        cases hb : cpfs_remove_recursive_body (logged os none) fresh recL path (s, log) it' good0 with
        | fault => simp [hb, Res.bind] at h
        | timeout => simp [hb, Res.bind] at h
        | ok r1 =>
          obtain ⟨g1, s1, log1⟩ := r1
          obtain ⟨⟨evs1, hext1⟩, hA1, hB1⟩ :=
            body_simulates os fresh K recL recK hrec path s log it' good0 g1 s1 log1 hb
          have hlen1 : log.length ≤ log1.length := by rw [hext1]; simp
          simp only [hb, Res.bind] at h
          cases g1 with
          | false =>
            simp only [Bool.false_eq_true, if_false, Res.ok.injEq, Prod.mk.injEq] at h
            obtain ⟨e1, e2, e3⟩ := h
            subst e1 e2 e3
            refine ⟨⟨evs1, hext1⟩, fun hA => ?_, fun h1 h2 => ?_⟩
            · rw [hA1 hA]
              simp [Res.bind]
            · obtain ⟨sk, ev, hk, hev⟩ := hB1 h1 h2
              rw [hk]
              exact ⟨sk, ev, by simp [Res.bind], hev⟩
          | true =>
            simp only [if_true] at h
            obtain ⟨⟨evs2, hext2⟩, hA2, hB2⟩ := ih s1 log1 it' true g s' log' h
            have hlen2 : log1.length ≤ log'.length := by rw [hext2]; simp
            refine ⟨⟨evs1 ++ evs2, by rw [hext2, hext1, List.append_assoc]⟩,
              fun hA => ?_, fun h1 h2 => ?_⟩
            · rw [hA1 (by omega)]
              simp only [Res.bind, if_true]
              exact hA2 (by omega)
            · by_cases hlt : K < log1.length
              · obtain ⟨sk, ev, hk, hev⟩ := hB1 h1 hlt
                rw [hk]
                refine ⟨sk, ev, ?_, hev⟩
                simp only [Res.bind, Bool.false_eq_true, if_false]
                rw [hext2, List.take_append_of_le_length (by omega)]
              · rw [hA1 (Or.inr (by omega))]
                simp only [Res.bind, if_true]
                exact hB2 (by omega) h2

theorem remove_recursive_simulates {σ : Type} (os : OS σ) (fresh : Nat → CpfsChar) (K : Nat) :
    ∀ fuel, Simulates K (cpfs_remove_recursive (logged os none) fresh fuel)
      (cpfs_remove_recursive (logged os (some K)) fresh fuel) := by
  intro fuel
  induction fuel with
  | zero =>
    intro s log p good s' log' h
    simp [cpfs_remove_recursive] at h
  | succ fuel ih =>
    intro s log p good s' log' h
    unfold cpfs_remove_recursive at h ⊢
    unfold cpfs_dir_create at h ⊢
    cases hc : c_str p.path with
    | none => simp [hc] at h
    | some T =>
      simp only [hc, Option.map_some', logged_none_opendir] at h ⊢
      cases hd : (os.opendir s T).1 with
      | none =>
        simp only [hd, Option.isSome_none, Bool.false_eq_true, if_false, Res.ok.injEq,
          Prod.mk.injEq] at h
        obtain ⟨e1, e2, e3⟩ := h
        subst e1 e2 e3
        refine ⟨⟨_, rfl⟩, fun hA => ?_, fun h1 h2 => ?_⟩
        · simp only [List.length_append, List.length_singleton] at hA
          rw [agree_opendir os K s log T (by omega), logged_none_opendir]
          simp [hd]
        · simp only [List.length_append, List.length_singleton] at h2
          have hK : K = log.length := by omega
          rw [forced_opendir os K s log T hK]
          refine ⟨s, Event.opendir T false, ?_, rfl⟩
          simp [hK]
      | some d =>
        simp only [hd, Option.isSome_some, if_true] at h
        obtain ⟨⟨evs, hext⟩, hA, hB⟩ := loop_simulates os fresh K _ _ ih p fuel _ _ _ true good s' log' h
        have hlen : log.length + 1 ≤ log'.length := by rw [hext]; simp
        refine ⟨⟨[Event.opendir T true] ++ evs, by rw [hext, List.append_assoc]⟩,
          fun hA' => ?_, fun h1 h2 => ?_⟩
        · rw [agree_opendir os K s log T (by omega), logged_none_opendir]
          simp only [hd, Option.isSome_some, if_true]
          exact hA (by simp only [List.length_append, List.length_singleton]; omega)
        · by_cases hK : K = log.length
          · rw [forced_opendir os K s log T hK]
            refine ⟨s, Event.opendir T false, ?_, rfl⟩
            simp [hK, hext]
          · rw [agree_opendir os K s log T hK, logged_none_opendir]
            simp only [hd, Option.isSome_some, if_true]
            exact hB (by simp only [List.length_append, List.length_singleton]; omega) h2

theorem body_lifts {σ : Type} (os : OS σ) (fresh : Nat → CpfsChar)
    (rec0 : σ → CpfsPath → Res (Bool × σ))
    (recL : σ × List Event → CpfsPath → Res (Bool × σ × List Event))
    (hrec : ∀ s log p good s', rec0 s p = Res.ok (good, s') →
      ∃ log', recL (s, log) p = Res.ok (good, (s', log')))
    (path : CpfsPath) (s : σ) (log : List Event) (it : CpfsDirIter) (good0 g : Bool) (s' : σ)
    (h : cpfs_remove_recursive_body os fresh rec0 path s it good0 = Res.ok (g, s')) :
    ∃ log', cpfs_remove_recursive_body (logged os none) fresh recL path (s, log) it good0
      = Res.ok (g, (s', log')) := by
  unfold cpfs_remove_recursive_body at h ⊢
  cases hn : cpfs_dir_name it with
  | none => simp [hn] at h
  | some en =>
    simp only [hn] at h ⊢
    cases hj : cpfs_path_join fresh path en with
    | none => simp [hj] at h
    | some q =>
      simp only [hj] at h ⊢
      generalize hX0 : (if cpfs_dir_type it = some CpfsFileType.CPFS_FT_DIRECTORY then
          rec0 s q else Res.ok (good0, s)) = X0 at h
      generalize hXL : (if cpfs_dir_type it = some CpfsFileType.CPFS_FT_DIRECTORY then
          recL (s, log) q else Res.ok (good0, (s, log))) = XL
      cases X0 with
      | fault => simp [Res.bind] at h
      | timeout => simp [Res.bind] at h
      | ok r1 =>
        obtain ⟨g1, s1⟩ := r1
        have step1 : ∃ log1, XL = Res.ok (g1, (s1, log1)) := by
          by_cases hty : cpfs_dir_type it = some CpfsFileType.CPFS_FT_DIRECTORY
          · rw [if_pos hty] at hX0 hXL
            rw [← hXL]
            exact hrec s log q g1 s1 hX0
          · rw [if_neg hty] at hX0 hXL
            simp only [Res.ok.injEq, Prod.mk.injEq] at hX0
            obtain ⟨e1, e2⟩ := hX0
            subst e1 e2
            exact ⟨log, hXL.symm⟩
        obtain ⟨log1, hl1⟩ := step1
        rw [hl1]
        simp only [Res.bind] at h ⊢
        cases g1 with
        | false =>
          simp only [Bool.false_eq_true, if_false, Res.ok.injEq, Prod.mk.injEq] at h ⊢
          obtain ⟨e1, e2⟩ := h
          subst e1 e2
          exact ⟨log1, rfl, rfl, rfl⟩
        | true =>
          simp only [if_true] at h ⊢
          unfold cpfs_remove at h ⊢
          cases hc : c_str q.path with
          | none => simp [hc, Res.ofOption] at h
          | some T =>
            simp only [hc, Option.map_some', Res.ofOption, Res.ok.injEq] at h ⊢
            rw [logged_none_remove, h]
            exact ⟨_, rfl⟩

theorem loop_lifts {σ : Type} (os : OS σ) (fresh : Nat → CpfsChar)
    (rec0 : σ → CpfsPath → Res (Bool × σ))
    (recL : σ × List Event → CpfsPath → Res (Bool × σ × List Event))
    (hrec : ∀ s log p good s', rec0 s p = Res.ok (good, s') →
      ∃ log', recL (s, log) p = Res.ok (good, (s', log')))
    (path : CpfsPath) :
    ∀ (fuel : Nat) (s : σ) (log : List Event) (it : CpfsDirIter) (good0 g : Bool) (s' : σ),
      cpfs_remove_recursive_loop os fresh rec0 path fuel s it good0 = Res.ok (g, s') →
      ∃ log', cpfs_remove_recursive_loop (logged os none) fresh recL path fuel (s, log) it good0
        = Res.ok (g, (s', log')) := by
  intro fuel
  induction fuel with
  | zero =>
    intro s log it good0 g s' h
    simp [cpfs_remove_recursive_loop] at h
  | succ fuel ih =>
    intro s log it good0 g s' h
    unfold cpfs_remove_recursive_loop at h ⊢
    cases hn : cpfs_dir_next it with
    | none => simp [hn] at h
    | some r =>
      obtain ⟨more, it'⟩ := r
      cases more with
      | false =>
        simp only [hn, Res.ok.injEq, Prod.mk.injEq] at h ⊢
        obtain ⟨e1, e2⟩ := h
        subst e1 e2
        exact ⟨log, rfl, rfl, rfl⟩
      | true =>
        simp only [hn] at h ⊢
        cases hb : cpfs_remove_recursive_body os fresh rec0 path s it' good0 with
        | fault => simp [hb, Res.bind] at h
        | timeout => simp [hb, Res.bind] at h
        | ok r1 =>
          obtain ⟨g1, s1⟩ := r1
          obtain ⟨log1, hl1⟩ := body_lifts os fresh rec0 recL hrec path s log it' good0 g1 s1 hb
          rw [hl1]
          simp only [hb, Res.bind] at h ⊢
          cases g1 with
          | false =>
            simp only [Bool.false_eq_true, if_false, Res.ok.injEq, Prod.mk.injEq] at h ⊢
            obtain ⟨e1, e2⟩ := h
            subst e1 e2
            exact ⟨log1, rfl, rfl, rfl⟩
          | true =>
            simp only [if_true] at h ⊢
            exact ih s1 log1 it' true g s' h

theorem remove_recursive_lifts {σ : Type} (os : OS σ) (fresh : Nat → CpfsChar) :
    ∀ (fuel : Nat) (s : σ) (log : List Event) (p : CpfsPath) (good : Bool) (s' : σ),
      cpfs_remove_recursive os fresh fuel s p = Res.ok (good, s') →
      ∃ log', cpfs_remove_recursive (logged os none) fresh fuel (s, log) p
        = Res.ok (good, (s', log')) := by
  intro fuel
  induction fuel with
  | zero =>
    intro s log p good s' h
    simp [cpfs_remove_recursive] at h
  | succ fuel ih =>
    intro s log p good s' h
    unfold cpfs_remove_recursive at h ⊢
    unfold cpfs_dir_create at h ⊢
    cases hc : c_str p.path with
    | none => simp [hc] at h
    | some T =>
      simp only [hc, Option.map_some', logged_none_opendir] at h ⊢
      cases hd : (os.opendir s T).1 with
      | none =>
        simp only [hd, Option.isSome_none, Bool.false_eq_true, if_false, Res.ok.injEq,
          Prod.mk.injEq] at h ⊢
        obtain ⟨e1, e2⟩ := h
        subst e1 e2
        exact ⟨_, rfl, rfl, rfl⟩
      | some d =>
        simp only [hd, Option.isSome_some, if_true] at h ⊢
        exact loop_lifts os fresh _ _ ih p fuel _ _ _ true good s' h

/-- A walk that returns: its calls, and what forcing one of them to fail does. -/
theorem remove_recursive_fail_fast_of_return {σ : Type} (os : OS σ) (fresh : Nat → CpfsChar)
    (fuel : Nat) (s s' : σ) (path : CpfsPath) (good : Bool)
    (h : cpfs_remove_recursive os fresh fuel s path = Res.ok (good, s')) :
    ∃ evs, cpfs_remove_recursive (logged os none) fresh fuel (s, []) path
        = Res.ok (good, (s', evs)) ∧
      FailFast good evs ∧
      ∀ k, k < evs.length →
        ∃ sk ev, cpfs_remove_recursive (logged os (some k)) fresh fuel (s, []) path
          = Res.ok (false, (sk, evs.take k ++ [ev])) ∧ ev.success = false := by
  obtain ⟨evs, hl⟩ := remove_recursive_lifts os fresh fuel s [] path good s' h
  refine ⟨evs, hl, ?_, ?_⟩
  · obtain ⟨evs', e, f⟩ := remove_recursive_failFast os none fresh fuel s [] path good s' evs hl
    simp only [List.nil_append] at e
    rw [e]
    exact f
  · intro k hk
    exact (remove_recursive_simulates os fresh k fuel s [] path good s' evs hl).2.2
      (Nat.zero_le _) hk

/-! ## The walk with a forced failure returns -/

theorem c_str_of_mem (l : List CpfsChar) (h : (0 : CpfsChar) ∈ l) :
    ∃ a, c_str l = some a ∧ a.length < l.length := by
  induction l with
  | nil => cases h
  | cons c cs ih =>
    by_cases hc : c = 0
    · exact ⟨[], by simp [c_str, hc], by simp⟩
    · have hmem : (0 : CpfsChar) ∈ cs := by
        rcases List.mem_cons.mp h with h0 | h0
        · exact absurd h0.symm hc
        · exact h0
      obtain ⟨a, ha, hl⟩ := ih hmem
      exact ⟨c :: a, by simp [c_str, hc, ha], by simpa using hl⟩

theorem cpfs_dir_name_proper (d : Option (List Dirent)) (e : Dirent)
    (h : (0 : CpfsChar) ∈ e.d_name) :
    ∃ en, cpfs_dir_name { dir := d, entry := some e } = some en ∧ en.Proper := by
  obtain ⟨a, ha, hl⟩ := c_str_of_mem e.d_name h
  refine ⟨{ size := a.length, path := e.d_name, owned := false }, ?_, ?_, h⟩
  · simp [cpfs_dir_name, strlen, ha]
  · exact Nat.le_of_lt hl

theorem cpfs_path_join_proper (fresh : Nat → CpfsChar) (p en : CpfsPath)
    (hp : p.Proper) (he : en.Proper) :
    ∃ q, cpfs_path_join fresh p en = some q ∧ q.Proper := by
  refine ⟨_, cpfs_path_join_some fresh p en hp.1 he.1, ?_, ?_⟩
  · have h1 := hp.1
    have h2 := he.1
    simp only [List.length_append, List.length_take, List.length_drop, malloc_length,
      List.length_singleton, Nat.min_eq_left h1, Nat.min_eq_left h2]
    split <;> split <;> simp <;> omega
  · simp

theorem body_forced {σ : Type} (os : OS σ) (fresh : Nat → CpfsChar) (K M : Nat)
    (rec0 : σ → CpfsPath → Res (Bool × σ))
    (recK : σ × List Event → CpfsPath → Res (Bool × σ × List Event))
    (hrec : ∀ s log q, q.Proper → M ≤ log.length → log.length ≤ K →
      ForcedOutcome K 1 log (rec0 s q) (recK (s, log) q))
    (path : CpfsPath) (hp : path.Proper) (s : σ) (log : List Event)
    (d : Option (List Dirent)) (e : Dirent) (he : (0 : CpfsChar) ∈ e.d_name)
    (hM : M ≤ log.length) (hK : log.length ≤ K) :
    ForcedOutcome K 1 log
      (cpfs_remove_recursive_body os fresh rec0 path s { dir := d, entry := some e } true)
      (cpfs_remove_recursive_body (logged os (some K)) fresh recK path (s, log)
        { dir := d, entry := some e } true) := by
  obtain ⟨en, hn, hen⟩ := cpfs_dir_name_proper d e he
  obtain ⟨q, hj, hq⟩ := cpfs_path_join_proper fresh path en hp hen
  obtain ⟨T, hc, _⟩ := c_str_of_mem q.path hq.2
  unfold cpfs_remove_recursive_body
  simp only [hn, hj]
  generalize hX0 : (if cpfs_dir_type { dir := d, entry := some e } =
      some CpfsFileType.CPFS_FT_DIRECTORY then rec0 s q else Res.ok (true, s)) = X0
  generalize hXK : (if cpfs_dir_type { dir := d, entry := some e } =
      some CpfsFileType.CPFS_FT_DIRECTORY then recK (s, log) q
      else Res.ok (true, (s, log))) = XK
  have step1 : ∃ g1 s1 log1, XK = Res.ok (g1, (s1, log1)) ∧
      (∃ evs, log1 = log ++ evs) ∧ log.length ≤ log1.length ∧
      (g1 = false → log.length + 1 ≤ log1.length) ∧
      log1.length ≤ K + 1 ∧
      (log1.length = K + 1 → g1 = false) ∧
      (log1.length ≤ K → X0 = Res.ok (g1, s1)) := by
    by_cases hty : cpfs_dir_type { dir := d, entry := some e } =
        some CpfsFileType.CPFS_FT_DIRECTORY
    · rw [if_pos hty] at hX0 hXK
      obtain ⟨g1, s1, log1, h1, h2, h3, h4, h5, h6⟩ := hrec s log q hq hM hK
      rw [hXK] at h1
      rw [hX0] at h6
      exact ⟨g1, s1, log1, h1, h2, by omega, fun _ => h3, h4, h5, h6⟩
    · rw [if_neg hty] at hX0 hXK
      refine ⟨true, s, log, hXK.symm, ⟨[], by simp⟩, Nat.le_refl _, ?_, by omega, ?_,
        fun _ => hX0.symm⟩
      · intro h
        cases h
      · intro h
        omega
  obtain ⟨g1, s1, log1, h1, ⟨evs1, hext1⟩, h3, h3f, h4, h5, h6⟩ := step1
  rw [h1]
  cases g1 with
  | false =>
    refine ⟨false, s1, log1, by simp [Res.bind], ⟨evs1, hext1⟩, h3f rfl, h4, fun _ => rfl,
      fun hle => ?_⟩
    rw [h6 hle]
    simp [Res.bind]
  | true =>
    have hlt : log1.length ≤ K := by
      by_contra hcon
      have := h5 (by omega)
      cases this
    rw [h6 hlt]
    simp only [Res.bind, if_true]
    unfold cpfs_remove
    rw [hc]
    simp only [Option.map_some', Res.ofOption]
    by_cases hKeq : K = log1.length
    · rw [forced_remove os K s1 log1 T hKeq]
      refine ⟨false, s1, log1 ++ [Event.remove T false], rfl,
        ⟨evs1 ++ [Event.remove T false], by rw [hext1, List.append_assoc]⟩, ?_, ?_,
        fun _ => rfl, fun hle => ?_⟩
      · simp only [List.length_append, List.length_singleton]
        omega
      · simp only [List.length_append, List.length_singleton]
        omega
      · simp only [List.length_append, List.length_singleton] at hle
        omega
    · rw [agree_remove os K s1 log1 T hKeq, logged_none_remove]
      refine ⟨(os.remove s1 T).1, (os.remove s1 T).2,
        log1 ++ [Event.remove T (os.remove s1 T).1], rfl,
        ⟨evs1 ++ [Event.remove T (os.remove s1 T).1], by rw [hext1, List.append_assoc]⟩,
        ?_, ?_, fun hle => ?_, fun _ => rfl⟩
      · simp only [List.length_append, List.length_singleton]
        omega
      · simp only [List.length_append, List.length_singleton]
        omega
      · simp only [List.length_append, List.length_singleton] at hle
        omega

theorem loop_forced {σ : Type} (os : OS σ) (fresh : Nat → CpfsChar) (K M : Nat)
    (rec0 : σ → CpfsPath → Res (Bool × σ))
    (recK : σ × List Event → CpfsPath → Res (Bool × σ × List Event))
    (hrec : ∀ s log q, q.Proper → M ≤ log.length → log.length ≤ K →
      ForcedOutcome K 1 log (rec0 s q) (recK (s, log) q))
    (path : CpfsPath) (hp : path.Proper) :
    ∀ (fuel : Nat) (s : σ) (log : List Event) (stream : List Dirent) (entry : Option Dirent),
      (∀ e ∈ stream, (0 : CpfsChar) ∈ e.d_name) →
      M ≤ log.length → log.length ≤ K → K + 1 ≤ fuel + log.length →
      ForcedOutcome K 0 log
        (cpfs_remove_recursive_loop os fresh rec0 path fuel s
          { dir := some stream, entry := entry } true)
        (cpfs_remove_recursive_loop (logged os (some K)) fresh recK path fuel (s, log)
          { dir := some stream, entry := entry } true) := by
  intro fuel
  induction fuel with
  | zero =>
    intro s log stream entry _ _ hK hF
    omega
  | succ F ih =>
    intro s log stream entry hst hM hK hF
    cases stream with
    | nil =>
      refine ⟨true, s, log, ?_, ⟨[], by simp⟩, by omega, by omega, fun h => by omega,
        fun _ => ?_⟩
      · simp [cpfs_remove_recursive_loop, cpfs_dir_next]
      · simp [cpfs_remove_recursive_loop, cpfs_dir_next]
    | cons d rest =>
      obtain ⟨g1, s1, log1, h1, ⟨evs1, hext1⟩, h3, h4, h5, h6⟩ :=
        body_forced os fresh K M rec0 recK hrec path hp s log (some rest) d
          (hst d (List.mem_cons_self _ _)) hM hK
      unfold cpfs_remove_recursive_loop
      simp only [cpfs_dir_next]
      rw [h1]
      cases g1 with
      | false =>
        refine ⟨false, s1, log1, by simp [Res.bind], ⟨evs1, hext1⟩, by omega, h4,
          fun _ => rfl, fun hle => ?_⟩
        rw [h6 hle]
        simp [Res.bind]
      | true =>
        have hlt : log1.length ≤ K := by
          by_contra hcon
          have := h5 (by omega)
          cases this
        rw [h6 hlt]
        simp only [Res.bind, if_true]
        obtain ⟨g2, s2, log2, k1, ⟨evs2, hext2⟩, k3, k4, k5, k6⟩ :=
          ih s1 log1 rest (some d) (fun e he => hst e (List.mem_cons_of_mem _ he))
            (by omega) hlt (by omega)
        exact ⟨g2, s2, log2, k1, ⟨evs1 ++ evs2, by rw [hext2, hext1, List.append_assoc]⟩,
          by omega, k4, k5, k6⟩

theorem remove_recursive_forced {σ : Type} (os : OS σ) (hos : os.Proper)
    (fresh : Nat → CpfsChar) (K : Nat) :
    ∀ (fuel : Nat) (s : σ) (log : List Event) (path : CpfsPath), path.Proper →
      log.length ≤ K → K + 1 ≤ fuel + log.length →
      ForcedOutcome K 1 log (cpfs_remove_recursive os fresh fuel s path)
        (cpfs_remove_recursive (logged os (some K)) fresh fuel (s, log) path) := by
  intro fuel
  induction fuel with
  | zero =>
    intro s log path _ hK hF
    omega
  | succ F ih =>
    intro s log path hp hK hF
    obtain ⟨T, hc, _⟩ := c_str_of_mem path.path hp.2
    unfold cpfs_remove_recursive cpfs_dir_create
    rw [hc]
    simp only [Option.map_some']
    by_cases hKeq : K = log.length
    · rw [forced_opendir os K s log T hKeq]
      refine ⟨false, s, log ++ [Event.opendir T false], by simp, ⟨_, rfl⟩, ?_, ?_,
        fun _ => rfl, fun hle => ?_⟩
      · simp
      · simp only [List.length_append, List.length_singleton]
        omega
      · simp only [List.length_append, List.length_singleton] at hle
        omega
    · rw [agree_opendir os K s log T hKeq, logged_none_opendir]
      cases hd : (os.opendir s T).1 with
      | none =>
        refine ⟨false, (os.opendir s T).2, log ++ [Event.opendir T false], by simp,
          ⟨_, rfl⟩, ?_, ?_, fun _ => rfl, fun _ => by simp⟩
        · simp
        · simp only [List.length_append, List.length_singleton]
          omega
      | some stream =>
        simp only [Option.isSome_some, if_true]
        obtain ⟨g2, s2, log2, k1, ⟨evs2, hext2⟩, k3, k4, k5, k6⟩ :=
          loop_forced os fresh K (K + 1 - F) (cpfs_remove_recursive os fresh F)
            (cpfs_remove_recursive (logged os (some K)) fresh F)
            (fun s0 log0 q hq hM0 hK0 => ih s0 log0 q hq hK0 (by omega)) path hp
            F (os.opendir s T).2 (log ++ [Event.opendir T true]) stream none
            (hos s T stream hd)
            (by simp only [List.length_append, List.length_singleton]; omega)
            (by simp only [List.length_append, List.length_singleton]; omega)
            (by simp only [List.length_append, List.length_singleton]; omega)
        refine ⟨g2, s2, log2, k1, ⟨[Event.opendir T true] ++ evs2, by
          rw [hext2, List.append_assoc]⟩, ?_, k4, k5, k6⟩
        simp only [List.length_append, List.length_singleton] at k3
        omega

theorem cpfs_path_create_proper (utf8 : List CpfsChar) (p : CpfsPath)
    (h : cpfs_path_create utf8 = some p) : p.Proper := by
  unfold cpfs_path_create strlen at h
  cases hc : c_str utf8 with
  | none => simp [hc] at h
  | some a =>
    simp only [hc, Option.map_some', Option.some.injEq] at h
    subst h
    have hmem : (0 : CpfsChar) ∈ utf8 := by
      induction utf8 generalizing a with
      | nil => simp [c_str] at hc
      | cons c cs ih =>
        by_cases h0 : c = 0
        · simp [h0]
        · simp only [c_str, h0, if_false] at hc
          cases hcs : c_str cs with
          | none => simp [hcs] at hc
          | some b => exact List.mem_cons_of_mem _ (ih b hcs)
    obtain ⟨b, hb, hl⟩ := c_str_of_mem utf8 hmem
    rw [hc] at hb
    injection hb with hb
    subst hb
    exact ⟨Nat.le_of_lt hl, hmem⟩

theorem posix_proper : posix.Proper := by
  intro fs t d h e he
  have h1 : (FS.opendir fs t).1 = some d := h
  unfold FS.opendir at h1
  cases hr : fs.resolve t with
  | none => simp [hr] at h1
  | some loc =>
    simp only [hr] at h1
    by_cases hd : fs.isDir loc = true
    · simp only [hd, if_true, Option.some.injEq] at h1
      subst h1
      unfold FS.stream at he
      rcases List.mem_append.mp he with h2 | h2
      · by_cases hdots : fs.dots = true
        · simp only [hdots, if_true, List.mem_cons, List.mem_singleton, List.not_mem_nil,
            or_false] at h2
          rcases h2 with h2 | h2 <;> subst h2 <;> simp [literal]
        · simp [hdots] at h2
      · obtain ⟨n, _, hn⟩ := List.mem_map.mp h2
        subst hn
        simp [literal]
    · simp [hd] at h1

/-- Claim C5: `cpfs_remove_recursive` is fail-fast.  Over any operating
system whose directory streams hold NUL-terminated names, for every state,
every path with a NUL in its block and its `size` cells inside it, and every
`k`: the walk in which library call number `k` (an `opendir` by
`cpfs_dir_create`, at the top or in a recursive call, or a `remove` by
`cpfs_remove`) is forced to fail returns, with any fuel above `k`, whether or
not the walk without the forced failure returns.  Of the calls it made, all
succeeded when the result is true, and when the result is false exactly one
failed and it is the last call made.  It makes no call after call `k`; when it
made call `k` the result is false and that call is the last one, so no later
entry is recursed into or removed and no call is made that could restore what
was removed before; when it returned before call `k`, the walk without the
forced failure returns the same result and state.  And when the walk without
the forced failure returns, it makes the same calls when they are logged, and
if call `k` is one of them the forced walk made exactly the calls before it
and the failing call. -/
theorem remove_recursive_fail_fast {σ : Type} (os : OS σ) (fresh : Nat → CpfsChar)
    (fuel k : Nat) (s : σ) (path : CpfsPath)
    (hos : os.Proper) (hp : path.Proper) (hf : k < fuel) :
    ∃ good s' evs,
      cpfs_remove_recursive (logged os (some k)) fresh fuel (s, []) path
        = Res.ok (good, (s', evs)) ∧
      FailFast good evs ∧
      evs.length ≤ k + 1 ∧
      (evs.length = k + 1 → good = false) ∧
      (evs.length ≤ k → cpfs_remove_recursive os fresh fuel s path = Res.ok (good, s')) ∧
      ∀ good0 s0, cpfs_remove_recursive os fresh fuel s path = Res.ok (good0, s0) →
        ∃ evs0, cpfs_remove_recursive (logged os none) fresh fuel (s, []) path
            = Res.ok (good0, (s0, evs0)) ∧
          FailFast good0 evs0 ∧
          (k < evs0.length →
            good = false ∧ ∃ ev, evs = evs0.take k ++ [ev] ∧ ev.success = false) := by
  obtain ⟨good, s', evs, h1, _, _, h4, h5, h6⟩ :=
    remove_recursive_forced os hos fresh k fuel s [] path hp (Nat.zero_le _)
      (by simp only [List.length_nil]; omega)
  refine ⟨good, s', evs, h1, ?_, h4, h5, h6, ?_⟩
  · obtain ⟨evs', e, f⟩ :=
      remove_recursive_failFast os (some k) fresh fuel s [] path good s' evs h1
    simp only [List.nil_append] at e
    rw [e]
    exact f
  · intro good0 s0 h0
    obtain ⟨evs0, hl, hff, hk⟩ :=
      remove_recursive_fail_fast_of_return os fresh fuel s s0 path good0 h0
    refine ⟨evs0, hl, hff, fun hlt => ?_⟩
    obtain ⟨sk, ev, hrun, hev⟩ := hk k hlt
    rw [h1] at hrun
    simp only [Res.ok.injEq, Prod.mk.injEq] at hrun
    exact ⟨hrun.1, ev, hrun.2.2, hev⟩

/-! ## The walk on the filesystem -/

theorem opendir_state (s : FS) (T : List CpfsChar) : (s.opendir T).2 = s := by
  unfold FS.opendir
  split
  · rfl
  · split <;> rfl

theorem opendir_some (s : FS) (T : List CpfsChar) (st : List Dirent)
    (h : (s.opendir T).1 = some st) :
    ∃ D, s.resolve T = some D ∧ s.isDir D = true ∧ st = s.stream D := by
  unfold FS.opendir at h
  cases hr : s.resolve T with
  | none => simp [hr] at h
  | some D =>
    simp only [hr] at h
    by_cases hd : s.isDir D = true
    · simp only [hd, if_true, Option.some.injEq] at h
      exact ⟨D, rfl, hd, h.symm⟩
    · simp [hd] at h

theorem stream_head_not_dir (s : FS) (D : Loc) (e : Dirent) (more : List Dirent)
    (h : s.stream D = e :: more) (hty : e.d_type ≠ DT_DIR) :
    (s.nodes.any fun n => n.parent = D) = true := by
  unfold FS.stream at h
  cases hdots : s.dots with
  | true =>
    simp only [hdots, if_true, List.cons_append, List.cons.injEq] at h
    exact absurd (by rw [← h.1]) hty
  | false =>
    simp only [hdots, Bool.false_eq_true, if_false, List.nil_append] at h
    cases hf : s.nodes.filter (fun n => n.parent = D) with
    | nil => simp [hf] at h
    | cons n ns =>
      have hn : n ∈ s.nodes.filter (fun n => n.parent = D) := by simp [hf]
      rw [List.mem_filter] at hn
      rw [List.any_eq_true]
      exact ⟨n, hn.1, hn.2⟩

theorem remove_nonempty (s : FS) (T : List CpfsChar) (D : Loc)
    (hr : s.resolve T = some D) (hd : s.isDir D = true)
    (hany : (s.nodes.any fun n => n.parent = D) = true) :
    s.remove T = (false, s) := by
  unfold FS.remove
  simp [hr, hd, hany]

theorem remove_true (s s2 : FS) (T : List CpfsChar) (h : s.remove T = (true, s2)) :
    ∃ L, s.resolve T = some L ∧
      s2 = { s with nodes := s.nodes.filter fun n => n.loc ≠ L } := by
  unfold FS.remove at h
  cases hr : s.resolve T with
  | none => simp [hr] at h
  | some L =>
    simp only [hr] at h
    refine ⟨L, rfl, ?_⟩
    split at h
    · split at h
      · simp at h
      · simp only [Prod.mk.injEq, true_and] at h
        exact h.symm
    · simp only [Prod.mk.injEq, true_and] at h
      exact h.symm

theorem posix_remove (s : FS) (q : CpfsPath) (T : List CpfsChar) (hT : c_str q.path = some T) :
    cpfs_remove posix s q = some (s.remove T) := by
  simp [cpfs_remove, hT, posix]

theorem posix_dir_create_eq (s : FS) (q : CpfsPath) (T : List CpfsChar)
    (hT : c_str q.path = some T) :
    cpfs_dir_create posix s q =
      some ((s.opendir T).1.isSome, { dir := (s.opendir T).1, entry := none }, s) := by
  simp [cpfs_dir_create, hT, posix, opendir_state]

theorem walk_child (s : FS) (D : Loc) (c : Name) (hc : validName c) (hd : s.isDir D = true) :
    s.walk D [c] = some (D ++ [c]) := by
  obtain ⟨h1, _, _, h4, h5⟩ := hc
  simp [FS.walk, hd, h1, h4, h5]


/-- A call on a path whose text ends before `size` cells returns true only when
the directory stream is empty, and then changes nothing. -/
theorem remove_recursive_long_true (fresh : Nat → CpfsChar) :
    ∀ (fuel : Nat) (s s' : FS) (q : CpfsPath) (T rest : List CpfsChar),
      q.path = T ++ 0 :: rest → NulFree T → T.length < q.size →
      cpfs_remove_recursive posix fresh fuel s q = Res.ok (true, s') →
      s' = s ∧ (s.opendir T).1 = some [] := by
  intro fuel
  induction fuel with
  | zero =>
    intro s s' q T rest _ _ _ h
    simp [cpfs_remove_recursive] at h
  | succ fuel ih =>
    intro s s' q T rest hq hT hs h
    have hcs : c_str q.path = some T := by rw [hq]; exact c_str_append_nul T rest hT
    unfold cpfs_remove_recursive at h
    rw [posix_dir_create_eq s q T hcs] at h
    cases ho : (s.opendir T).1 with
    | none => simp [ho] at h
    | some st =>
      simp only [ho, Option.isSome_some, if_true] at h
      cases fuel with
      | zero => simp [cpfs_remove_recursive_loop] at h
      | succ f =>
        cases st with
        | nil =>
          rw [loop_nil] at h
          simp only [Res.ok.injEq, Prod.mk.injEq, true_and] at h
          exact ⟨h.symm, rfl⟩
        | cons e more =>
          exfalso
          rw [loop_cons] at h
          -- the body for the first entry cannot return true
          have hbody : ∀ s1, cpfs_remove_recursive_body posix fresh
              (cpfs_remove_recursive posix fresh (f + 1)) q s
              { dir := some more, entry := some e } true ≠ Res.ok (true, s1) := by
            intro s1 hb
            unfold cpfs_remove_recursive_body at hb
            cases hn : cpfs_dir_name { dir := some more, entry := some e } with
            | none => simp [hn] at hb
            | some en =>
              simp only [hn] at hb
              cases hj : cpfs_path_join fresh q en with
              | none => simp [hj] at hb
              | some q' =>
                simp only [hj, cpfs_dir_type_directory] at hb
                obtain ⟨r', h1, h2, _⟩ := cpfs_path_join_long fresh q en q' T rest hq hs hj
                have hcs' : c_str q'.path = some T := by
                  rw [h1]; exact c_str_append_nul T r' hT
                by_cases hty : e.d_type = DT_DIR
                · simp only [hty, if_true] at hb
                  cases hr : cpfs_remove_recursive posix fresh (f + 1) s q' with
                  | fault => simp [hr, Res.bind] at hb
                  | timeout => simp [hr, Res.bind] at hb
                  | ok r1 =>
                    obtain ⟨g1, s1'⟩ := r1
                    cases g1 with
                    | true =>
                      have := (ih s s1' q' T r' h1 hT h2 hr).2
                      rw [ho] at this
                      cases this
                    | false => simp [hr, Res.bind] at hb
                · simp only [hty, if_false, Res.bind, if_true] at hb
                  obtain ⟨D, hres, hd, hst⟩ := opendir_some s T _ ho
                  have hany := stream_head_not_dir s D e more hst.symm hty
                  rw [posix_remove s q' T hcs', remove_nonempty s T D hres hd hany] at hb
                  simp [Res.ofOption] at hb
          cases hb : cpfs_remove_recursive_body posix fresh
              (cpfs_remove_recursive posix fresh (f + 1)) q s
              { dir := some more, entry := some e } true with
          | fault => simp [hb, Res.bind] at h
          | timeout => simp [hb, Res.bind] at h
          | ok r =>
            obtain ⟨g, s1⟩ := r
            cases g with
            | true => exact hbody s1 hb
            | false => simp [hb, Res.bind] at h


/-- The loop over the entries of `D`, walked through a path with text `a`
whose `size` is the length of `a`: when it returns true, exactly the entries
listed have been removed. -/
theorem loop_removes (fresh : Nat → CpfsChar) (s0 : FS) (p : CpfsPath)
    (a rest : List CpfsChar) (D : Loc)
    (k : Nat) (ha : NulFree a) (hp : p.path = a ++ 0 :: rest) (hsz : p.size = a.length)
    (hr0 : s0.resolve a = some D) (hd0 : s0.isDir D = true)
    (ns : List Node) :
    (∀ n ∈ ns, validName n.name ∧ n.parent = D) →
    ∀ (fuel : Nat) (s s' : FS) (x : Option Dirent),
      s.cwd = s0.cwd → (∀ n ∈ s.nodes, n ∈ s0.nodes) →
      cpfs_remove_recursive_loop posix fresh (cpfs_remove_recursive posix fresh k) p fuel s
        { dir := some (ns.map fun n =>
            { d_name := literal n.name, d_type := if n.dir then DT_DIR else DT_REG }),
          entry := x } true = Res.ok (true, s') →
      s'.cwd = s.cwd ∧ s'.dots = s.dots ∧
        s'.nodes = s.nodes.filter (fun m => m.loc ∉ ns.map Node.loc) := by
  induction ns with
  | nil =>
    intro _ fuel s s' x _ _ h
    cases fuel with
    | zero => simp [cpfs_remove_recursive_loop] at h
    | succ f =>
      simp only [List.map_nil] at h
      rw [loop_nil] at h
      simp only [Res.ok.injEq, Prod.mk.injEq, true_and] at h
      subst h
      simp
  | cons n ns ih =>
    intro hns fuel s s' x hcwd hsub h
    have hn := hns n (by simp)
    have hns' : ∀ m ∈ ns, validName m.name ∧ m.parent = D := fun m hm => hns m (by simp [hm])
    obtain ⟨hvalid, hpar⟩ := hn
    have hne : a ≠ [] := resolve_ne_nil s0 a D hr0
    cases fuel with
    | zero => simp [cpfs_remove_recursive_loop] at h
    | succ f =>
      simp only [List.map_cons] at h
      rw [loop_cons, body_literal _ _ _ _ _ _ n.name _ hvalid.2.1,
        cpfs_path_join_entry fresh p a rest n.name hp hsz hne hvalid.1] at h
      simp only at h
      have hnul : NulFree (a ++ DIR_SEP :: n.name) :=
        nulFree_append ha (nulFree_append nulFree_sep hvalid.2.1)
      have hcs : c_str ((a ++ DIR_SEP :: n.name) ++ 0 :: []) = some (a ++ DIR_SEP :: n.name) :=
        c_str_append_nul _ [] hnul
      generalize hX : (if (if n.dir = true then DT_DIR else DT_REG) = DT_DIR then
            cpfs_remove_recursive posix fresh k s
              { size := a.length + n.name.length + 1 + 1,
                path := (a ++ DIR_SEP :: n.name) ++ 0 :: [], owned := true }
          else Res.ok (true, s)) = X at h
      cases X with
      | fault => simp [Res.bind] at h
      | timeout => simp [Res.bind] at h
      | ok r1 =>
        obtain ⟨g1, s1⟩ := r1
        cases g1 with
        | false => simp [Res.bind] at h
        | true =>
          -- the recursive call, when made, leaves the state unchanged
          have e1 : s1 = s := by
            by_cases hty : (if n.dir = true then DT_DIR else DT_REG) = DT_DIR
            · rw [if_pos hty] at hX
              exact (remove_recursive_long_true fresh k s s1 _ (a ++ DIR_SEP :: n.name) []
                rfl hnul (by simp; omega) hX).1
            · rw [if_neg hty] at hX
              simp only [Res.ok.injEq, Prod.mk.injEq, true_and] at hX
              exact hX.symm
          subst e1
          simp only [Res.bind, if_true] at h
          rw [posix_remove s1 _ _ hcs] at h
          simp only [Res.ofOption] at h
          cases hrm : s1.remove (a ++ DIR_SEP :: n.name) with
          | mk g2 s2 =>
            simp only [hrm] at h
            cases g2 with
            | false => simp at h
            | true =>
              simp only [if_true] at h
              obtain ⟨L, hL, hs2⟩ := remove_true s1 s2 _ hrm
              have hL0 := resolve_mono s1 s0 hcwd hsub _ L hL
              have hchild := resolve_child s0 a n.name D hvalid.2.2.1 hr0
              rw [hL0, walk_child s0 D n.name hvalid hd0] at hchild
              have hLeq : L = n.loc := by
                simp only at hchild
                split at hchild
                · injection hchild with hchild
                  rw [hchild, Node.loc, hpar]
                · cases hchild
              have hn2 : s2.nodes = s1.nodes.filter (fun m => m.loc ≠ L) := by rw [hs2]
              have hc2 : s2.cwd = s1.cwd := by rw [hs2]
              have hd2 : s2.dots = s1.dots := by rw [hs2]
              obtain ⟨c1, c2, c3⟩ := ih hns' f s2 s' _ (hc2.trans hcwd)
                (fun m hm => hsub m (by rw [hn2] at hm; exact List.mem_of_mem_filter hm)) h
              refine ⟨c1.trans hc2, c2.trans hd2, ?_⟩
              rw [c3, hn2, List.filter_filter]
              congr 1
              funext m
              simp only [hLeq, List.map_cons, List.mem_cons, not_or, ne_eq, Bool.decide_and,
                Bool.and_comm]

theorem loc_eq_child (n : Node) (D : Loc) (c : Name) (h : n.loc = D ++ [c]) : n.parent = D := by
  unfold Node.loc at h
  exact (List.append_inj' h rfl).1

theorem no_child_entry (fs : FS) (D : Loc) (h : ∀ n ∈ fs.nodes, n.parent ≠ D) (c : Name) :
    fs.isEntry (D ++ [c]) = false ∧ fs.isDir (D ++ [c]) = false := by
  constructor
  · rw [← Bool.not_eq_true]
    simp only [FS.isEntry, Bool.or_eq_true, decide_eq_true_eq, List.any_eq_true]
    rintro (h0 | ⟨n, hn, hl⟩)
    · simp at h0
    · exact h n hn (loc_eq_child n D c hl)
  · rw [← Bool.not_eq_true]
    simp only [FS.isDir, Bool.or_eq_true, decide_eq_true_eq, List.any_eq_true,
      Bool.and_eq_true]
    rintro (h0 | ⟨n, hn, hl, _⟩)
    · simp at h0
    · exact h n hn (loc_eq_child n D c hl)

theorem not_reachable_below (fs : FS) (D : Loc) (h : ∀ n ∈ fs.nodes, n.parent ≠ D)
    (c : Name) (rest : List Name) : fs.reachable (D ++ c :: rest) = false := by
  unfold FS.reachable
  cases rest with
  | nil => simp [(no_child_entry fs D h c).1]
  | cons r rs =>
    rw [Bool.and_eq_false_iff]
    right
    rw [← Bool.not_eq_true, List.all_eq_true]
    intro hall
    have := hall (D.length + 1) (by simp)
    have e : List.take (D.length + 1) (D ++ c :: r :: rs) = D ++ [c] := by
      rw [List.take_append]
      simp
    rw [e, (no_child_entry fs D h c).2] at this
    cases this

theorem filter_parent_of_none (fs : FS) (D : Loc)
    (h : fs.nodes.filter (fun n => n.parent = D) = []) :
    fs.nodes = fs.nodes.filter (fun n => n.parent ≠ D) := by
  symm
  rw [List.filter_eq_self]
  intro n hn
  simp only [ne_eq, decide_not, Bool.not_eq_true', decide_eq_false_iff_not]
  intro hpn
  have : n ∈ fs.nodes.filter (fun n => n.parent = D) :=
    List.mem_filter.mpr ⟨hn, by simpa using hpn⟩
  rw [h] at this
  cases this

theorem isDir_after (fs fs' : FS) (D : Loc)
    (hnodes : fs'.nodes = fs.nodes.filter (fun n => n.parent ≠ D))
    (hd : fs.isDir D = true) : fs'.isDir D = true := by
  simp only [FS.isDir, Bool.or_eq_true, decide_eq_true_eq, List.any_eq_true,
    Bool.and_eq_true] at hd ⊢
  rcases hd with hd | ⟨n, hn, hl, hdir⟩
  · exact Or.inl hd
  · refine Or.inr ⟨n, ?_, hl, hdir⟩
    rw [hnodes, List.mem_filter]
    refine ⟨hn, ?_⟩
    simp only [ne_eq, decide_not, Bool.not_eq_true', decide_eq_false_iff_not]
    intro hpn
    unfold Node.loc at hl
    rw [hpn] at hl
    have := congrArg List.length hl
    simp at this

/-- What a walk that returns true has done, for every filesystem state with
valid entry names and every path whose `size` is at least the length of its
text (every path built by `cpfs_path_create`, `cpfs_dir_name` or
`cpfs_path_join`): the path named a directory `D`, that directory is still
there afterwards, every entry of `D` has been removed and nothing else has,
and nothing below `D` is reachable any more. -/
theorem remove_recursive_success (fresh : Nat → CpfsChar) (fs fs' : FS)
    (a rest : List CpfsChar) (p : CpfsPath) (fuel : Nat) (hwf : fs.WF) (ha : NulFree a)
    (hp : p.path = a ++ 0 :: rest) (hsz : a.length ≤ p.size)
    (h : cpfs_remove_recursive posix fresh fuel fs p = Res.ok (true, fs')) :
    ∃ D, fs.resolve a = some D ∧ fs.isDir D = true ∧ fs'.isDir D = true ∧
      fs'.nodes = fs.nodes.filter (fun n => n.parent ≠ D) ∧
      ∀ c more, fs'.reachable (D ++ c :: more) = false := by
  have hcs : c_str p.path = some a := by rw [hp]; exact c_str_append_nul a rest ha
  -- in both cases the entries of `D` are gone and nothing else is
  have fin : ∀ D, fs.resolve a = some D → fs.isDir D = true →
      fs'.nodes = fs.nodes.filter (fun n => n.parent ≠ D) →
      ∃ D, fs.resolve a = some D ∧ fs.isDir D = true ∧ fs'.isDir D = true ∧
        fs'.nodes = fs.nodes.filter (fun n => n.parent ≠ D) ∧
        ∀ c more, fs'.reachable (D ++ c :: more) = false := by
    intro D hres hd hnodes
    have hno : ∀ n ∈ fs'.nodes, n.parent ≠ D := by
      intro n hn
      rw [hnodes] at hn
      simpa using (List.mem_filter.mp hn).2
    exact ⟨D, hres, hd, isDir_after fs fs' D hnodes hd, hnodes, not_reachable_below fs' D hno⟩
  by_cases hlong : a.length < p.size
  · -- the text ends before `size` cells: the stream was empty, nothing changed
    obtain ⟨e, ho⟩ := remove_recursive_long_true fresh fuel fs fs' p a rest hp ha hlong h
    obtain ⟨D, hres, hd, hst⟩ := opendir_some fs a [] ho
    subst e
    refine fin D hres hd (filter_parent_of_none fs' D ?_)
    have hst' := hst.symm
    unfold FS.stream at hst'
    rw [List.append_eq_nil, List.map_eq_nil_iff] at hst'
    exact hst'.2
  · have hsz' : p.size = a.length := by omega
    cases fuel with
    | zero => simp [cpfs_remove_recursive] at h
    | succ f =>
      have h' := h
      unfold cpfs_remove_recursive at h
      rw [posix_dir_create_eq fs _ a hcs] at h
      cases ho : (fs.opendir a).1 with
      | none => simp [ho] at h
      | some st =>
        simp only [ho, Option.isSome_some, if_true] at h
        obtain ⟨D, hres, hd, hst⟩ := opendir_some fs a st ho
        cases hdots : fs.dots with
        | true =>
          have := (dots_never_return fresh fs a rest D p hdots ha hres hd hp hsz').1 (f + 1)
          rw [this] at h'
          cases h'
        | false =>
          have hstream : st = (fs.nodes.filter fun n => n.parent = D).map fun n =>
              { d_name := literal n.name, d_type := if n.dir then DT_DIR else DT_REG } := by
            rw [hst]
            simp [FS.stream, hdots]
          rw [hstream] at h
          obtain ⟨_, _, c3⟩ := loop_removes fresh fs p a rest D f ha hp hsz' hres hd _
            (fun n hn => ⟨hwf n (List.mem_of_mem_filter hn), by
              simpa using (List.mem_filter.mp hn).2⟩)
            f fs fs' none rfl (fun n hn => hn) h
          refine fin D hres hd ?_
          rw [c3]
          apply List.filter_congr
          intro m hm
          by_cases hpm : m.parent = D
          · have : m.loc ∈ List.map Node.loc (List.filter (fun n => decide (n.parent = D)) fs.nodes) :=
              List.mem_map.mpr ⟨m, List.mem_filter.mpr ⟨hm, by simpa using hpm⟩, rfl⟩
            simp [this, hpm]
          · have : m.loc ∉ List.map Node.loc (List.filter (fun n => decide (n.parent = D)) fs.nodes) := by
              intro hmem
              obtain ⟨n, hn, hl⟩ := List.mem_map.mp hmem
              have hnp : n.parent = D := by simpa using (List.mem_filter.mp hn).2
              unfold Node.loc at hl
              exact hpm ((List.append_inj' hl rfl).1.symm.trans hnp)
            simp [this, hpm]

/-! ## Remaining claims, witnesses and counterexamples -/

/-- Claim C8, where the code departs from it: on a filesystem whose directory
streams report the self entry, a call of `cpfs_remove_recursive` on a
directory (through a path whose `size` is the length of its text, as built by
`cpfs_path_create`) does not complete, whatever the fuel, as long as `opendir`
does not run out of resources: the entry `"."` is directory-typed, and the
path the code recurses on for it names the directory being walked, not a
directory below it. -/
theorem remove_recursive_dots (fresh : Nat → CpfsChar) (fs : FS) (a rest : List CpfsChar)
    (D : Loc) (p : CpfsPath) (hdots : fs.dots = true) (ha : NulFree a)
    (hr : fs.resolve a = some D) (hd : fs.isDir D = true)
    (hp : p.path = a ++ 0 :: rest) (hsz : p.size = a.length) :
    (∀ fuel, cpfs_remove_recursive posix fresh fuel fs p = Res.timeout) ∧
    (∃ q T, cpfs_path_join fresh p { size := 1, path := literal DOT, owned := false } = some q ∧
      c_str q.path = some T ∧ fs.resolve T = some D) :=
  dots_never_return fresh fs a rest D p hdots ha hr hd hp hsz

/-- Claim C9, where the code departs from it: for an argument count of `256`
or more the `unsigned char` counter wraps from `255` to `0` and stays below
`nargs`, so the loop never exits, and `cpfs_join` never returns. -/
theorem cpfs_join_counter_wraps (nargs : Nat) (h : 256 ≤ nargs) :
    (∀ (body : Nat → JoinState → Res JoinState) (fuel : Nat) (st r : JoinState),
      for_uchar nargs body fuel 0 st ≠ Res.ok r) ∧
    (∀ (fresh : Nat → CpfsChar) (fuel : Nat) (argp : List (List CpfsChar))
      (out : List CpfsChar), cpfs_join fresh fuel nargs argp ≠ Res.ok out) := by
  refine ⟨fun body fuel st r => for_uchar_never_ok nargs body h fuel 0 st r (by norm_num), ?_⟩
  intro fresh fuel argp out
  unfold cpfs_join
  rw [if_pos (by omega)]
  dsimp only
  intro hres
  cases h1 : for_uchar nargs cpfs_join_body1 fuel 0
      { argp := argp, paths := malloc (fun _ => []) nargs, sizes := malloc fresh nargs,
        total_size := 0, out := [], cur := 0 } with
  | ok st => exact for_uchar_never_ok nargs _ h fuel 0 _ st (by norm_num) h1
  | fault => simp [h1, Res.bind] at hres
  | timeout => simp [h1, Res.bind] at hres

theorem cpfs_join_spec_witness :
    (1 ≤ exampleComponents.length ∧ exampleComponents.length ≤ 255 ∧
      (∀ c ∈ exampleComponents, NulFree c) ∧ exampleComponents.length < 4) ∧
    (joined exampleComponents = bytes "foo/bar/baz/qux" ∧
      cpfs_join zeros 6 5 (List.map literal exampleSparse) = Res.ok (literal (bytes "foo/qux")) ∧
      cpfs_join zeros 4 3 (List.map literal [[], [], []]) = Res.ok (literal [])) ∧
    ∃ out, cpfs_join zeros 4 exampleComponents.length (List.map literal exampleComponents)
        = Res.ok out ∧ c_str out = some (joined exampleComponents) :=
  ⟨⟨by decide, by decide, by decide, by decide⟩, ⟨by decide, by decide, by decide⟩,
    cpfs_join_spec zeros exampleComponents (by decide) (by decide) (by decide) 4 (by decide)⟩

theorem cpfs_join2_spec_witness :
    (NulFree (bytes "foo") ∧ NulFree (bytes "bar/baz")) ∧
    ((cpfs_join2 zeros (literal (bytes "")) (literal (bytes "a"))).bind c_str = some (bytes "a") ∧
      (cpfs_join2 zeros (literal (bytes "a")) (literal (bytes ""))).bind c_str
        = some (bytes "a")) ∧
    ∃ out, cpfs_join2 zeros (literal (bytes "foo")) (literal (bytes "bar/baz")) = some out ∧
      c_str out = some (if bytes "foo" = [] then bytes "bar/baz"
        else if bytes "bar/baz" = [] then bytes "foo"
        else bytes "foo" ++ DIR_SEP :: bytes "bar/baz") :=
  ⟨⟨by decide, by decide⟩, ⟨by decide, by decide⟩,
    cpfs_join2_spec zeros (bytes "foo") (bytes "bar/baz") (by decide) (by decide)⟩

theorem cpfs_path_join_empty_first_witness :
    (NulFree (bytes "a") ∧ bytes "a" ≠ [] ∧
      cpfs_path_create (literal []) = some (pathOf []) ∧
      cpfs_path_create (literal (bytes "a")) = some (pathOf (bytes "a"))) ∧
    ∃ out, cpfs_path_join zeros (pathOf []) (pathOf (bytes "a")) = some out ∧
      c_str out.path = some (DIR_SEP :: bytes "a") ∧ out.owned = true :=
  ⟨⟨by decide, by decide, by decide, by decide⟩,
    cpfs_path_join_empty_first zeros (bytes "a") (by decide) (by decide) (pathOf [])
      (pathOf (bytes "a")) (by decide) (by decide)⟩

theorem cpfs_path_join_size_witness :
    (NulFree (bytes "a") ∧ NulFree (bytes "b") ∧ bytes "a" ≠ [] ∧
      cpfs_path_create (literal (bytes "a")) = some (pathOf (bytes "a")) ∧
      cpfs_path_create (literal (bytes "b")) = some (pathOf (bytes "b"))) ∧
    ∃ out n, cpfs_path_join zeros (pathOf (bytes "a")) (pathOf (bytes "b")) = some out ∧
      strlen out.path = some n ∧ out.size = n + 1 :=
  ⟨⟨by decide, by decide, by decide, by decide, by decide⟩,
    cpfs_path_join_size zeros (bytes "a") (bytes "b") (by decide) (by decide) (by decide)
      (pathOf (bytes "a")) (pathOf (bytes "b")) (by decide) (by decide)⟩

theorem cpfs_path_join_nested_witness :
    (NulFree (bytes "a") ∧ NulFree (bytes "b") ∧ NulFree (bytes "c") ∧
      bytes "a" ≠ [] ∧ bytes "b" ≠ [] ∧
      cpfs_path_create (literal (bytes "a")) = some (pathOf (bytes "a")) ∧
      cpfs_path_create (literal (bytes "b")) = some (pathOf (bytes "b")) ∧
      cpfs_path_create (literal (bytes "c")) = some (pathOf (bytes "c"))) ∧
    ∃ q out, cpfs_path_join zeros (pathOf (bytes "a")) (pathOf (bytes "b")) = some q ∧
      cpfs_path_join zeros q (pathOf (bytes "c")) = some out ∧
      c_str out.path = some (bytes "a" ++ DIR_SEP :: bytes "b") :=
  ⟨⟨by decide, by decide, by decide, by decide, by decide, by decide, by decide, by decide⟩,
    cpfs_path_join_nested zeros (bytes "a") (bytes "b") (bytes "c") (by decide) (by decide)
      (by decide) (by decide) (by decide) (pathOf (bytes "a")) (pathOf (bytes "b"))
      (pathOf (bytes "c")) (by decide) (by decide) (by decide)⟩

/-- Claim C4, where the code departs from it: on a filesystem whose streams
do not report the self and parent entries, with a directory `d` that holds a
file `f` and an empty directory `e`, the call of `cpfs_remove_recursive` on
the path built by `cpfs_path_create` from `"d"` returns true, and afterwards
`cpfs_exists` is still true of `d`.  The calls made are `opendir` of `d`,
`remove` of `d/f`, `opendir` of `d/e` and `remove` of `d/e`: the entries are
removed, and no `remove` is made on `d` itself. -/
theorem remove_recursive_keeps_directory :
    cpfs_path_create (literal (bytes "d")) = some (pathOf (bytes "d")) ∧
    cpfs_exists posix exampleTree (pathOf (bytes "d")) = some true ∧
    cpfs_remove_recursive posix zeros 4 exampleTree (pathOf (bytes "d"))
      = Res.ok (true, exampleEmptied) ∧
    cpfs_exists posix exampleEmptied (pathOf (bytes "d")) = some true ∧
    cpfs_remove_recursive (logged posix none) zeros 4 (exampleTree, []) (pathOf (bytes "d"))
      = Res.ok (true, (exampleEmptied, exampleTreeLog)) ∧
    (∀ e ∈ exampleTreeLog, ∀ b, e ≠ Event.remove (bytes "d") b) := by
  decide

theorem remove_recursive_fail_fast_witness :
    (posix.Proper ∧ (pathOf (bytes "d")).Proper ∧ 5 < 6) ∧
    (cpfs_remove_recursive posix zeros 6 exampleDots (pathOf (bytes "d")) = Res.timeout ∧
      cpfs_remove_recursive (logged posix (some 5)) zeros 6 (exampleDots, []) (pathOf (bytes "d"))
        = Res.ok (false, (exampleDots, exampleDotsLog)) ∧
      cpfs_remove_recursive (logged posix (some 2)) zeros 3 (exampleNested, [])
          (pathOf (bytes "d"))
        = Res.ok (false, (exampleNestedAfter,
            exampleLog.take 2 ++ [Event.opendir (bytes "d/e") false]))) ∧
    ∃ good s' evs,
      cpfs_remove_recursive (logged posix (some 5)) zeros 6 (exampleDots, []) (pathOf (bytes "d"))
        = Res.ok (good, (s', evs)) ∧
      FailFast good evs ∧
      evs.length ≤ 5 + 1 ∧
      (evs.length = 5 + 1 → good = false) ∧
      (evs.length ≤ 5 →
        cpfs_remove_recursive posix zeros 6 exampleDots (pathOf (bytes "d"))
          = Res.ok (good, s')) ∧
      ∀ good0 s0, cpfs_remove_recursive posix zeros 6 exampleDots (pathOf (bytes "d"))
          = Res.ok (good0, s0) →
        ∃ evs0, cpfs_remove_recursive (logged posix none) zeros 6 (exampleDots, [])
            (pathOf (bytes "d")) = Res.ok (good0, (s0, evs0)) ∧
          FailFast good0 evs0 ∧
          (5 < evs0.length →
            good = false ∧ ∃ ev, evs = evs0.take 5 ++ [ev] ∧ ev.success = false) :=
  ⟨⟨posix_proper, by decide, by decide⟩, ⟨by decide, by decide, by decide⟩,
    remove_recursive_fail_fast posix zeros 6 5 exampleDots (pathOf (bytes "d"))
      posix_proper (by decide) (by decide)⟩

theorem remove_recursive_dots_witness :
    (exampleDots.dots = true ∧ NulFree (bytes "d") ∧
      exampleDots.resolve (bytes "d") = some [bytes "d"] ∧
      exampleDots.isDir [bytes "d"] = true ∧
      (pathOf (bytes "d")).path = bytes "d" ++ 0 :: [] ∧
      (pathOf (bytes "d")).size = (bytes "d").length) ∧
    (∀ fuel, cpfs_remove_recursive posix zeros fuel exampleDots (pathOf (bytes "d"))
      = Res.timeout) ∧
    (∃ q T, cpfs_path_join zeros (pathOf (bytes "d"))
        { size := 1, path := literal DOT, owned := false } = some q ∧
      c_str q.path = some T ∧ exampleDots.resolve T = some [bytes "d"]) :=
  ⟨⟨by decide, by decide, by decide, by decide, by decide, by decide⟩,
    remove_recursive_dots zeros exampleDots (bytes "d") [] [bytes "d"] (pathOf (bytes "d"))
      (by decide) (by decide) (by decide) (by decide) (by decide) (by decide)⟩

theorem cpfs_join_counter_wraps_witness :
    256 ≤ 256 ∧
    (∀ (body : Nat → JoinState → Res JoinState) (fuel : Nat) (st r : JoinState),
      for_uchar 256 body fuel 0 st ≠ Res.ok r) ∧
    (∀ (fresh : Nat → CpfsChar) (fuel : Nat) (argp : List (List CpfsChar))
      (out : List CpfsChar), cpfs_join fresh fuel 256 argp ≠ Res.ok out) :=
  ⟨by decide, cpfs_join_counter_wraps 256 (by decide)⟩

end CPFS
